import Mathlib

/-
Verification of the scheduling engine of the bot_refactor repository.

The development shallowly embeds the core of
`src/core/algorithms/network_model.py`,
`src/core/algorithms/resource_allocation.py` and the relevant parts of
`src/core/services/schedule_service.py`.

Modelling conventions:
* Calendar dates are integers counting days from a fixed epoch chosen to be a
  Monday (so `2025-01-06` is day 0, and the weekday of day `d`, in the
  program's 1=Monday..7=Sunday convention, is `d % 7 + 1`).  The Python code
  round-trips dates through `strftime`/`strptime` strings but compares and
  shifts them only as whole days, so integer days are a faithful image.
* Python dicts become association lists with first-match lookup and
  replace-or-append insertion, which reproduces dict iteration order
  (first-insertion position, latest value).
* The outcome of `json.loads` on a serialized predecessor field is modelled
  by the inductive `PredJson`: a string either decodes to a list, decodes to
  some non-list value, or fails to decode.
* Unbounded Python `while` loops and unbounded recursion are given an
  explicit fuel argument; running out of fuel returns a sentinel and models
  non-termination of the source.  Loops that the source itself bounds by a
  counter are translated with that very bound.
-/

set_option autoImplicit false

namespace Sched

/-- Weekday of a day number, 1 = Monday .. 7 = Sunday; day 0 is a Monday,
mirroring `date.weekday() + 1` in the source. -/
def wd (d : Int) : Int := d.emod 7 + 1

/-- First-match association-list lookup, the image of a Python dict read. -/
def alookup {κ β : Type} [DecidableEq κ] : List (κ × β) → κ → Option β
  | [], _ => none
  | (k, v) :: rest, x => if x = k then some v else alookup rest x

/-- Replace-or-append insertion, the image of a Python dict assignment:
the key keeps its first-insertion position and takes the new value. -/
def ainsert {κ β : Type} [DecidableEq κ] : List (κ × β) → κ → β → List (κ × β)
  | [], k, v => [(k, v)]
  | (k0, v0) :: rest, k, v =>
      if k0 = k then (k, v) :: rest else (k0, v0) :: ainsert rest k v

/-- Update the element at an index of a list in place (used for the
adjacency lists of the node graph). -/
def updAt {α : Type} : List α → Nat → (α → α) → List α
  | [], _, _ => []
  | a :: rest, 0, f => f a :: rest
  | a :: rest, n + 1, f => a :: updAt rest n f

/-- Position of the first occurrence of an element in a list of nodes. -/
def posIn : List Nat → Nat → Nat
  | [], _ => 0
  | a :: rest, x => if x = a then 0 else posIn rest x + 1

/-- Outcome of `json.loads` applied to the textual predecessors field. -/
inductive PredJson : Type
  /-- The string decodes to a list of task ids. -/
  | jlist (l : List Int)
  /-- The string decodes, but not to a list. -/
  | jother
  /-- Decoding raises `json.JSONDecodeError`. -/
  | jerror
deriving DecidableEq, Repr

/-- The `predecessors` entry of a task dict. -/
inductive PredField : Type
  /-- A native list of ids. -/
  | plist (l : List Int)
  /-- A serialized string, described by what `json.loads` does to it. -/
  | pstr (j : PredJson)
  /-- Present but neither a list nor a string. -/
  | pother
  /-- The key `predecessors` is absent from the task dict. -/
  | pabsent
deriving DecidableEq, Repr

/-- A task dict as the scheduling engine reads it: `id`, `duration`,
`predecessors` and `employee_id` are the only keys the embedded code
touches; `Option` marks an absent key. -/
structure Task : Type where
  id : Option Int
  duration : Option Int
  predecessors : PredField
  employeeId : Option Int
deriving DecidableEq, Repr

/-- Map of task id to `(start, end)` calendar dates. -/
abbrev DMap := List (Int × (Int × Int))

/-- Error tag of a scheduling result; the source uses a Russian message
string, here reduced to its tag. -/
inductive CalcError : Type
  | cyclicDependency
deriving DecidableEq, Repr

/-- The dict returned by `NetworkModel.calculate`; optional fields are the
keys only some return paths include. -/
structure CalcResult : Type where
  duration : Int
  workdayDuration : Option Int
  criticalPath : List Int
  taskDates : DMap
  earlyTimes : List Int
  lateTimes : List Int
  reserves : List Int
  error : Option CalcError
  dependencies : Option (List (Int × List Int))
deriving DecidableEq, Repr

/-- The zero result every early-exit path of `calculate` returns. -/
def emptyResult : CalcResult :=
  { duration := 0, workdayDuration := none, criticalPath := [], taskDates := [],
    earlyTimes := [], lateTimes := [], reserves := [], error := none,
    dependencies := none }

/-- The result returned when the dependency graph contains a cycle. -/
def cycleResult : CalcResult := { emptyResult with error := some .cyclicDependency }

/-- Decoding of a present `predecessors` field, after the branch on a
native list versus a serialized string and the final list check
(`NetworkModel._get_task_dependencies`, the body of the found-task case). -/
def decodePreds : PredField → List Int
  | .plist l => l
  | .pstr (.jlist l) => l
  | .pstr .jother => []
  | .pstr .jerror => []
  | .pother => []
  | .pabsent => []

/-- First task whose id matches and which carries a `predecessors` key
(the search loop of `_get_task_dependencies`). -/
def firstWithPreds (tasks : List Task) (tid : Int) : Option Task :=
  tasks.find? fun t => decide (t.id = some tid) && decide (t.predecessors ≠ .pabsent)

/-- `NetworkModel._get_task_dependencies`. -/
def getTaskDependencies (tasks : List Task) (tid : Int) : List Int :=
  match firstWithPreds tasks tid with
  | some t => decodePreds t.predecessors
  | none => []

/-- One step of the `_get_all_dependencies` accumulation: tasks without an
id are skipped. -/
def getAllStep (tasks : List Task) (acc : List (Int × List Int)) (t : Task) :
    List (Int × List Int) :=
  match t.id with
  | some i => ainsert acc i (getTaskDependencies tasks i)
  | none => acc

/-- `NetworkModel._get_all_dependencies`. -/
def getAllDependencies (tasks : List Task) : List (Int × List Int) :=
  tasks.foldl (getAllStep tasks) []

/-- Node-number assignment of `_build_graph`: ids mapped to 1..N in task
order, together with the reverse map and the next free node number. -/
def buildMaps : List Task → List (Int × Nat) → List (Nat × Option Int) → Nat →
    List (Int × Nat) × List (Nat × Option Int) × Nat
  | [], m, r, n => (m, r, n)
  | t :: ts, m, r, n =>
      match t.id with
      | some i => buildMaps ts (ainsert m i n) (ainsert r n (some i)) (n + 1)
      | none => buildMaps ts m r n

/-- All ids mentioned as a predecessor of some task that has an id
(the `task_has_dependents` set of `_build_graph`, kept as a list since only
membership is read). -/
def collectDependents (tasks : List Task) : List Int :=
  tasks.foldl
    (fun acc t =>
      match t.id with
      | some i => acc ++ getTaskDependencies tasks i
      | none => acc) []

/-- Precomputed `task_dependencies` dict of `_build_graph`. -/
def buildTaskDeps (tasks : List Task) : List (Int × List Int) :=
  getAllDependencies tasks

/-- Addition of one predecessor edge in `_build_graph`: an edge from the
predecessor's node into `node`, weighted by the entering task's duration,
skipped when the predecessor id is unmapped. -/
def edgeAdd (m : List (Int × Nat)) (node : Nat) (d : Int)
    (g : List (List (Nat × Int))) (p : Int) : List (List (Nat × Int)) :=
  match alookup m p with
  | some pn => updAt g pn (fun l => l ++ [(node, d)])
  | none => g

/-- Edge-adding loop of `_build_graph` over the initialized adjacency
vector (node 0 is the source, `sink` the synthetic sink). -/
def edgeFold (tasks : List Task) (m : List (Int × Nat))
    (tdeps : List (Int × List Int)) (hasDependents : List Int)
    (sink : Nat) : List (List (Nat × Int)) → List Task → List (List (Nat × Int))
  | g, [] => g
  | g, t :: ts =>
      match t.id, t.duration with
      | some i, some d =>
          let node := (alookup m i).getD 0
          let deps := (alookup tdeps i).getD []
          let g1 :=
            if deps = [] then updAt g 0 (fun l => l ++ [(node, 0)])
            else deps.foldl (edgeAdd m node d) g
          let g2 := if i ∈ hasDependents then g1 else updAt g1 node (fun l => l ++ [(sink, 0)])
          edgeFold tasks m tdeps hasDependents sink g2 ts
      | _, _ => edgeFold tasks m tdeps hasDependents sink g ts

/-- `NetworkModel._build_graph`: returns the id-to-node map, the reverse
map (with `none` standing for the `'sink'` sentinel) and the adjacency
vector whose indices are the node numbers `0 .. sink`. -/
def buildGraph (tasks : List Task) :
    List (Int × Nat) × List (Nat × Option Int) × List (List (Nat × Int)) :=
  if tasks.isEmpty then ([], [], [])
  else
    let (m, r, nid) := buildMaps tasks [] [] 1
    if nid = 1 then (m, r, [])
    else
      let r2 := ainsert r nid none
      let sink := nid
      let tdeps := buildTaskDeps tasks
      let hasDependents := collectDependents tasks
      let g0 : List (List (Nat × Int)) := List.replicate (sink + 1) []
      (m, r2, edgeFold tasks m tdeps hasDependents sink g0 tasks)

/-- Neighbor scan of the depth-first search of `_has_cycle`; `stack` is the
current recursion stack including the node `u` being expanded, `F` the list
of finished nodes in finishing order (`visited` of the source is the union
of `F` and the stack). -/
def dfsFold (recur : Nat → List Nat → Bool × List Nat) (stack : List Nat) (u : Nat) :
    List (Nat × Int) → List Nat → Bool × List Nat
  | [], F => (false, F ++ [u])
  | (v, _) :: ns, F =>
      if v ∈ F ∨ v ∈ stack then
        if v ∈ stack then (true, F) else dfsFold recur stack u ns F
      else
        match recur v F with
        | (true, F2) => (true, F2)
        | (false, F2) => dfsFold recur stack u ns F2

/-- The recursive `dfs` of `_has_cycle`, with explicit recursion fuel: the
source recursion is unbounded, and exhausted fuel conservatively reports a
cycle (the fuel passed by `hasCycle` below always suffices). -/
def dfsVisit (g : List (List (Nat × Int))) : Nat → Nat → List Nat → List Nat → Bool × List Nat
  | 0, _, F, _ => (true, F)
  | fuel + 1, u, F, S =>
      dfsFold (fun v F2 => dfsVisit g fuel v F2 (u :: S)) (u :: S) u (g.getD u []) F

/-- Outer loop of `_has_cycle` over the graph keys. -/
def hasCycleLoop (g : List (List (Nat × Int))) (fuel : Nat) : List Nat → List Nat → Bool
  | [], _ => false
  | r :: rs, F =>
      if r ∈ F then hasCycleLoop g fuel rs F
      else
        match dfsVisit g fuel r F [] with
        | (true, _) => true
        | (false, F2) => hasCycleLoop g fuel rs F2

/-- Total number of edges of the adjacency vector. -/
def totalEdges (g : List (List (Nat × Int))) : Nat := (g.map List.length).sum

/-- `NetworkModel._has_cycle`. -/
def hasCycle (g : List (List (Nat × Int))) : Bool :=
  hasCycleLoop g (g.length + totalEdges g + 1) (List.range g.length) []

/-- One relaxation pass of `_calculate_early_times`: scan every node in
index order and maximize the labels of its in-range neighbors, threading
the in-place updates. -/
def relaxPass (g : List (List (Nat × Int))) (n : Nat) (early : List Int) : List Int × Bool :=
  (List.range n).foldl
    (fun acc node =>
      (g.getD node []).foldl
        (fun acc2 vw =>
          let e := acc2.1
          if vw.1 < n then
            if e.getD vw.1 0 < e.getD node 0 + vw.2 then
              (e.set vw.1 (e.getD node 0 + vw.2), true)
            else acc2
          else acc2) acc) (early, false)

/-- The `while changed` loop of `_calculate_early_times`, pass count capped
by the caller at `10 * n` exactly as in the source. -/
def earlyLoop (g : List (List (Nat × Int))) (n : Nat) : Nat → List Int → List Int
  | 0, e => e
  | fuel + 1, e =>
      let r := relaxPass g n e
      if r.2 then earlyLoop g n fuel r.1 else r.1

/-- `NetworkModel._calculate_early_times`. -/
def earlyTimes (g : List (List (Nat × Int))) : List Int :=
  if g.isEmpty then []
  else earlyLoop g g.length (g.length * 10) (List.replicate g.length 0)

/-- Reverse adjacency built by `_calculate_late_times`. -/
def buildRev (g : List (List (Nat × Int))) (n : Nat) : List (List (Nat × Int)) :=
  (List.range g.length).foldl
    (fun acc node =>
      (g.getD node []).foldl
        (fun acc2 vw =>
          if vw.1 < n then updAt acc2 vw.1 (fun l => l ++ [(node, vw.2)]) else acc2) acc)
    (List.replicate n [])

/-- One backward relaxation pass of `_calculate_late_times`, scanning the
nodes in descending index order. -/
def relaxBackPass (rev : List (List (Nat × Int))) (n : Nat) (late : List Int) : List Int × Bool :=
  (List.range n).reverse.foldl
    (fun acc node =>
      (rev.getD node []).foldl
        (fun acc2 pw =>
          let e := acc2.1
          if pw.1 < n then
            if e.getD pw.1 0 > e.getD node 0 - pw.2 then
              (e.set pw.1 (e.getD node 0 - pw.2), true)
            else acc2
          else acc2) acc) (late, false)

/-- The backward relaxation loop of `_calculate_late_times`. -/
def lateLoop (rev : List (List (Nat × Int))) (n : Nat) : Nat → List Int → List Int
  | 0, e => e
  | fuel + 1, e =>
      let r := relaxBackPass rev n e
      if r.2 then lateLoop rev n fuel r.1 else r.1

/-- `NetworkModel._calculate_late_times`. -/
def lateTimes (g : List (List (Nat × Int))) (early : List Int) : List Int :=
  if early.isEmpty then []
  else
    let n := early.length
    let pd := early.getD (n - 1) 0
    lateLoop (buildRev g n) n (n * 10) (List.replicate n pd)

/-- `NetworkModel._calculate_reserves`. -/
def reservesOf (early late : List Int) : List Int :=
  (List.range early.length).map fun i => late.getD i 0 - early.getD i 0

/-- `NetworkModel._find_critical_path`: zero-reserve interior nodes mapped
back to task ids, dropping the sink sentinel. -/
def findCriticalPath (reserves : List Int) (rev : List (Nat × Option Int)) : List Int :=
  let critNodes := (List.range reserves.length).filter fun node =>
    decide (reserves.getD node 0 = 0) && decide (0 < node) && decide (node < reserves.length - 1)
  critNodes.foldl
    (fun acc node =>
      match alookup rev node with
      | some (some tid) => acc ++ [tid]
      | some none => acc
      | none => acc) []

/-- The `next(...)` search for the task dict with a given id. -/
def firstTask (tasks : List Task) (tid : Int) : Option Task :=
  tasks.find? fun t => decide (t.id = some tid)

/-- Loop of `_calculate_task_dates` over the id-to-node map. -/
def calcTaskDatesGo (ps : Int) (early : List Int) (tasks : List Task) :
    List (Int × Nat) → DMap → DMap
  | [], acc => acc
  | p :: rest, acc =>
      match firstTask tasks p.1 with
      | none => calcTaskDatesGo ps early tasks rest acc
      | some t =>
          let es : Int := if p.2 > 0 then early.getD (p.2 - 1) 0 else 0
          let s := ps + es
          let e := s + (t.duration.getD 1) - 1
          calcTaskDatesGo ps early tasks rest (ainsert acc p.1 (s, e))

/-- `NetworkModel._calculate_task_dates` (simple mode): note that the
source indexes the early-times vector at `node_id - 1`. -/
def calcTaskDates (ps : Int) (early : List Int) (mapping : List (Int × Nat))
    (tasks : List Task) : DMap :=
  calcTaskDatesGo ps early tasks mapping []

/-- Days-off set applicable to a task in `_calculate_task_dates_with_days_off`:
the assigned employee's non-empty set when one can be fetched, otherwise
the corporate default Saturday and Sunday.  The employee service is a
function from employee id to its optional days-off list; a lookup failure
or exception is `none`. -/
def dofDaysOff (svc : Int → Option (List Int)) (t : Task) : List Int :=
  match t.employeeId with
  | some eid =>
      if eid ≠ 0 then
        match svc eid with
        | some l => if l ≠ [] then l else [6, 7]
        | none => [6, 7]
      else [6, 7]
  | none => [6, 7]

/-- First loop of `_calculate_task_dates_with_days_off`: advance day by day
counting working days until `tgt` of them have been counted.  The source
loop is unbounded; exhausted fuel (`none`) marks non-termination. -/
def dofSkipTo (off : List Int) : Nat → Int → Int → Int → Option Int
  | 0, _, _, _ => none
  | fuel + 1, cur, cnt, tgt =>
      if cnt < tgt then
        dofSkipTo off fuel (cur + 1) (if wd cur ∈ off then cnt else cnt + 1) tgt
      else some cur

/-- Second loop: move the candidate start off any non-working day.  Also
unbounded in the source. -/
def dofSkipOff (off : List Int) : Nat → Int → Option Int
  | 0, _ => none
  | fuel + 1, d => if wd d ∈ off then dofSkipOff off fuel (d + 1) else some d

/-- Third loop: count forward `dur` working days, the start day counting as
day 1.  Also unbounded in the source. -/
def dofCountDur (off : List Int) (dur : Int) : Nat → Int → Int → Option Int
  | 0, _, _ => none
  | fuel + 1, w, cur =>
      if w < dur then
        dofCountDur off dur fuel (if wd cur ∈ off then w else w + 1) (cur + 1)
      else some cur

/-- The per-task body of `_calculate_task_dates_with_days_off`. -/
def dofOne (off : List Int) (fuel : Nat) (ps : Int) (earlyW : Int) (dur : Int) :
    Option (Int × Int) :=
  match dofSkipTo off fuel ps 0 earlyW with
  | none => none
  | some cur =>
      match dofSkipOff off fuel (cur - 1) with
      | none => none
      | some ts =>
          match dofCountDur off dur fuel 1 (ts + 1) with
          | none => none
          | some cur2 => some (ts, cur2 - 1)

/-- Fuel that covers every terminating run of the days-off loops: whenever
some weekday is working, each block of 7 days yields a working day. -/
def dofFuel (es dur : Int) : Nat := (es.toNat + dur.toNat + 2) * 8

/-- Loop of `_calculate_task_dates_with_days_off` over the id-to-node map. -/
def dofDatesGo (svc : Int → Option (List Int)) (ps : Int) (early : List Int)
    (tasks : List Task) : List (Int × Nat) → DMap → DMap
  | [], acc => acc
  | p :: rest, acc =>
      match firstTask tasks p.1 with
      | none => dofDatesGo svc ps early tasks rest acc
      | some t =>
          let es : Int := if p.2 > 0 then early.getD (p.2 - 1) 0 else 0
          let off := dofDaysOff svc t
          let dur := t.duration.getD 1
          match dofOne off (dofFuel es dur) ps es dur with
          | none => dofDatesGo svc ps early tasks rest acc
          | some se => dofDatesGo svc ps early tasks rest (ainsert acc p.1 se)

/-- `NetworkModel._calculate_task_dates_with_days_off`.  A task whose loops
do not terminate in the source is the `none` case and is omitted here; the
source would instead hang (see the C5 analysis). -/
def dofDates (svc : Int → Option (List Int)) (ps : Int) (early : List Int)
    (mapping : List (Int × Nat)) (tasks : List Task) : DMap :=
  dofDatesGo svc ps early tasks mapping []

/-- One predecessor of the latest-end scan of
`_correct_dates_for_dependencies`: undated predecessors are skipped and a
strictly later end replaces the running latest. -/
def latestStep (D : DMap) (acc : Option Int) (p : Int) : Option Int :=
  match alookup D p with
  | none => acc
  | some pe =>
      match acc with
      | none => some pe.2
      | some l => if pe.2 > l then some pe.2 else acc

/-- The latest predecessor end-date scan of `_correct_dates_for_dependencies`. -/
def latestPredEnd (D : DMap) (preds : List Int) : Option Int :=
  preds.foldl (latestStep D) none

/-- Loop of `_update_dependent_tasks` over the dependents of a shifted
task; `e0` is the shifted task's end date read once before the loop,
`recur` the recursive call at one fuel less. -/
def cascadeFold (taskDict : List (Int × Task)) (recur : Int → DMap → DMap)
    (e0 : Int) : List Int → DMap → DMap
  | [], D => D
  | q :: rest, D =>
      match alookup D q, alookup taskDict q with
      | some sq, some tq =>
          if sq.1 ≤ e0 then
            let ns := e0 + 1
            cascadeFold taskDict recur e0 rest
              (recur q (ainsert D q (ns, ns + (tq.duration.getD 1) - 1)))
          else cascadeFold taskDict recur e0 rest D
      | _, _ => cascadeFold taskDict recur e0 rest D

/-- `NetworkModel._update_dependent_tasks`, with fuel for the unbounded
source recursion; exhausted fuel returns the map unchanged, so this form
is meaningful only where the fuel provably never runs out (on an acyclic
dependency map a fuel bounding the rank height suffices, and the theorems
below use it only under such hypotheses).  `cascadeD` is the
divergence-aware variant whose exhausted fuel is the `none` sentinel. -/
def cascade (deps : List (Int × List Int)) (taskDict : List (Int × Task)) :
    Nat → Int → DMap → DMap
  | 0, _, D => D
  | fuel + 1, t, D =>
      let depts := (deps.filter fun kp => decide (t ∈ kp.2)).map Prod.fst
      if depts = [] then D
      else
        match alookup D t with
        | none => D
        | some d0 => cascadeFold taskDict (cascade deps taskDict fuel) d0.2 depts D

/-- Main loop of `_correct_dates_for_dependencies` over the topologically
sorted task list. -/
def mainCorrect (deps : List (Int × List Int)) (taskDict : List (Int × Task))
    (cf : Nat) : List Task → DMap → DMap
  | [], D => D
  | t :: rest, D =>
      match t.id with
      | none => mainCorrect deps taskDict cf rest D
      | some tid =>
          match alookup D tid with
          | none => mainCorrect deps taskDict cf rest D
          | some sd =>
              match latestPredEnd D ((alookup deps tid).getD []) with
              | none => mainCorrect deps taskDict cf rest D
              | some l =>
                  if sd.1 ≤ l then
                    let ns := l + 1
                    let D2 := ainsert D tid (ns, ns + (t.duration.getD 1) - 1)
                    mainCorrect deps taskDict cf rest (cascade deps taskDict cf tid D2)
                  else mainCorrect deps taskDict cf rest D

/-- Per-dependent body of the queue loop of `NetworkModel._topological_sort`:
decrement the count of the dependent id and enqueue the first task carrying
that id when the count hits zero. -/
def nmTopoStep (taskList : List Task) (st : List (Int × Int) × List Task) (dep : Int) :
    List (Int × Int) × List Task :=
  match alookup st.1 dep with
  | none => st
  | some v0 =>
      let v := v0 - 1
      let dg := ainsert st.1 dep v
      if v = 0 then
        match taskList.find? (fun t2 => decide (t2.id = some dep)) with
        | some t2 => (dg, st.2 ++ [t2])
        | none => (dg, st.2)
      else (dg, st.2)

/-- Queue loop of `NetworkModel._topological_sort` (Kahn-style, but with
the in-degree of a task counting its dependents, exactly as the source
computes it). -/
def nmTopoLoop (taskList : List Task) (deps : List (Int × List Int)) :
    Nat → List (Int × Int) → List Task → List Task → List Task
  | 0, _, _, sorted => sorted
  | fuel + 1, indeg, q, sorted =>
      match q with
      | [] => sorted
      | t :: qrest =>
          let sorted2 := sorted ++ [t]
          match t.id with
          | none => nmTopoLoop taskList deps fuel indeg qrest sorted2
          | some i =>
              let dependents := (deps.filter fun kp => decide (i ∈ kp.2)).map Prod.fst
              let st := dependents.foldl (nmTopoStep taskList) (indeg, qrest)
              nmTopoLoop taskList deps fuel st.1 st.2 sorted2

/-- `NetworkModel._topological_sort`. -/
def nmTopoSort (taskList : List Task) (deps : List (Int × List Int)) : List Task :=
  let indeg0 : List (Int × Int) := taskList.foldl
    (fun acc t => match t.id with | some i => ainsert acc i 0 | none => acc) []
  let indeg := deps.foldl
    (fun acc kp =>
      kp.2.foldl
        (fun a p =>
          match alookup a p with
          | some v => ainsert a p (v + 1)
          | none => a) acc) indeg0
  let queue := taskList.filter fun t =>
    match t.id with
    | some i =>
        match alookup indeg i with
        | some v => decide (v = 0)
        | none => false
    | none => false
  let sorted := nmTopoLoop taskList deps (2 * taskList.length + 1) indeg queue []
  if sorted.length < taskList.length then
    taskList.foldl (fun acc t => if t ∈ acc then acc else acc ++ [t]) sorted
  else sorted

/-- `NetworkModel._correct_dates_for_dependencies`; `cf` is the fuel handed
to the cascading recursion. -/
def correctDates (cf : Nat) (D : DMap) (deps : List (Int × List Int))
    (taskDict : List (Int × Task)) : DMap :=
  let taskList := (deps.map Prod.fst).filterMap fun tid => alookup taskDict tid
  mainCorrect deps taskDict cf (nmTopoSort taskList deps) D

/-- Divergence-aware variant of `cascadeFold`: a `none` from the recursive
call (its recursion never terminated) is propagated. -/
def cascadeFoldD (taskDict : List (Int × Task)) (recur : Int → DMap → Option DMap)
    (e0 : Int) : List Int → DMap → Option DMap
  | [], D => some D
  | q :: rest, D =>
      match alookup D q, alookup taskDict q with
      | some sq, some tq =>
          if sq.1 ≤ e0 then
            let ns := e0 + 1
            match recur q (ainsert D q (ns, ns + (tq.duration.getD 1) - 1)) with
            | none => none
            | some D2 => cascadeFoldD taskDict recur e0 rest D2
          else cascadeFoldD taskDict recur e0 rest D
      | _, _ => cascadeFoldD taskDict recur e0 rest D

/-- Divergence-aware variant of `cascade`, following the convention of the
days-off mappers: the source recursion of `_update_dependent_tasks` has no
bound at all, so exhausted fuel is the `none` sentinel and a result of
`none` at every fuel means the source recursion never returns. -/
def cascadeD (deps : List (Int × List Int)) (taskDict : List (Int × Task)) :
    Nat → Int → DMap → Option DMap
  | 0, _, _ => none
  | fuel + 1, t, D =>
      let depts := (deps.filter fun kp => decide (t ∈ kp.2)).map Prod.fst
      if depts = [] then some D
      else
        match alookup D t with
        | none => some D
        | some d0 => cascadeFoldD taskDict (cascadeD deps taskDict fuel) d0.2 depts D

/-- Divergence-aware variant of `mainCorrect`. -/
def mainCorrectD (deps : List (Int × List Int)) (taskDict : List (Int × Task))
    (cf : Nat) : List Task → DMap → Option DMap
  | [], D => some D
  | t :: rest, D =>
      match t.id with
      | none => mainCorrectD deps taskDict cf rest D
      | some tid =>
          match alookup D tid with
          | none => mainCorrectD deps taskDict cf rest D
          | some sd =>
              match latestPredEnd D ((alookup deps tid).getD []) with
              | none => mainCorrectD deps taskDict cf rest D
              | some l =>
                  if sd.1 ≤ l then
                    let ns := l + 1
                    let D2 := ainsert D tid (ns, ns + (t.duration.getD 1) - 1)
                    match cascadeD deps taskDict cf tid D2 with
                    | none => none
                    | some D3 => mainCorrectD deps taskDict cf rest D3
                  else mainCorrectD deps taskDict cf rest D

/-- Divergence-aware variant of `correctDates`. -/
def correctDatesD (cf : Nat) (D : DMap) (deps : List (Int × List Int))
    (taskDict : List (Int × Task)) : Option DMap :=
  let taskList := (deps.map Prod.fst).filterMap fun tid => alookup taskDict tid
  mainCorrectD deps taskDict cf (nmTopoSort taskList deps) D

/-- The `task_dict` comprehension of `calculate` (entries keyed by an
actual id; the source also stores a `None`-keyed entry which no lookup in
the corrector can ever hit). -/
def mkTaskDict (tasks : List Task) : List (Int × Task) :=
  tasks.foldl
    (fun acc t => match t.id with | some i => ainsert acc i t | none => acc) []

/-- Calendar duration computed at the end of `calculate`: the span from
the earliest start to the latest end, inclusive, or the workday duration
when no task is dated. -/
def calendarDuration (td : DMap) (workday : Int) : Int :=
  match td with
  | [] => workday
  | x :: xs =>
      let mins := xs.foldl (fun m p => min m p.2.1) x.2.1
      let maxe := xs.foldl (fun m p => max m p.2.2) x.2.2
      maxe - mins + 1

/-- `NetworkModel.calculate`.  The employee service enabling the days-off
mode is an optional function from employee id to days-off list. -/
def calculate (ps : Int) (tasks : List Task) (svc : Option (Int → Option (List Int))) :
    CalcResult :=
  if tasks.isEmpty then emptyResult
  else
    let mrg := buildGraph tasks
    let mapping := mrg.1
    let rev := mrg.2.1
    let g := mrg.2.2
    if g.isEmpty then emptyResult
    else if hasCycle g then cycleResult
    else
      let early := earlyTimes g
      if early.isEmpty then emptyResult
      else
        let late := lateTimes g early
        if late.isEmpty then { emptyResult with earlyTimes := early }
        else
          let rsv := reservesOf early late
          let crit := findCriticalPath rsv rev
          let depsAll := getAllDependencies tasks
          let tdict := mkTaskDict tasks
          let td0 :=
            match svc with
            | some es => dofDates es ps early mapping tasks
            | none => calcTaskDates ps early mapping tasks
          let td := correctDates (tasks.length + 1) td0 depsAll tdict
          let workday := early.getLast?.getD 0
          { duration := calendarDuration td workday, workdayDuration := some workday,
            criticalPath := crit, taskDates := td, earlyTimes := early,
            lateTimes := late, reserves := rsv, error := none,
            dependencies := some depsAll }

/-- First loop of `resource_allocation.calculate_dates_with_days_off`:
find the first available day within the remaining iteration budget. -/
def raCalcFind (avail : Int → Bool) : Nat → Int → Option Int
  | 0, _ => none
  | r + 1, cur => if avail cur then some cur else raCalcFind avail r (cur + 1)

/-- Second loop: accumulate working days until `dur` of them are counted
or the iteration budget runs out; returns the final counter and date. -/
def raCalcCount (avail : Int → Bool) (dur : Int) : Nat → Int → Int → Int × Int
  | 0, w, cur => (w, cur)
  | r + 1, w, cur =>
      if w < dur then
        let w2 := if avail cur then w + 1 else w
        if w2 < dur then raCalcCount avail dur r w2 (cur + 1) else (w2, cur)
      else (w, cur)

/-- `resource_allocation.calculate_dates_with_days_off`: both loops are
capped by `duration * 3` iterations in the source itself, and exceeding
the cap returns `None`. -/
def raCalcDates (avail : Int → Bool) (task : Task) (startD : Int) :
    Option (Int × Int × Int) :=
  let dur := task.duration.getD 1
  let cap := (dur * 3).toNat
  match raCalcFind avail cap startD with
  | none => none
  | some s =>
      let we := raCalcCount avail dur cap 0 s
      if we.1 < dur then none else some (s, we.2, we.2 - s + 1)

/-- Inner window test of `resource_allocation.find_available_date`: try
`dur` consecutive days from `t`, threading the source's persistent
`end_date` variable. -/
def faWindow (avail : Int → Bool) : Nat → Int → Int → Bool × Int
  | 0, _, e => (true, e)
  | r + 1, t, _ => if avail t then faWindow avail r (t + 1) t else (false, t)

/-- Candidate loop of `find_available_date`, 60 attempts as in the source. -/
def faGo (avail : Int → Bool) (dur : Int) : Nat → Int → Int → Option (Int × Int)
  | 0, _, _ => none
  | k + 1, cur, e =>
      if avail cur then
        match faWindow avail dur.toNat cur e with
        | (true, e2) => some (cur, e2)
        | (false, e2) => faGo avail dur k (cur + 1) e2
      else faGo avail dur k (cur + 1) e

/-- `resource_allocation.find_available_date` for an existing person whose
per-day availability is `avail`. -/
def findAvailableDate (avail : Int → Bool) (startD : Int) (dur : Int) :
    Option (Int × Int) :=
  faGo avail dur 60 startD startD

/-- The candidate loop of `ScheduleService.calculate_schedule` that tries
each eligible person in order and keeps the first found window. -/
def firstWindow (cands : List (Int → Bool)) (startD : Int) (dur : Int) :
    Option (Int × Int) :=
  match cands with
  | [] => none
  | a :: rest =>
      match findAvailableDate a startD dur with
      | some se => some se
      | none => firstWindow rest startD dur

/-- Int write-back of the shift branch of `calculate_schedule`: dates are
overwritten only when a window was found. -/
def applyShift (D : DMap) (tid : Int) (r : Option (Int × Int)) : DMap :=
  match r with
  | some se => ainsert D tid se
  | none => D

/-- Per-neighbor body of the queue loop of
`resource_allocation.topological_sort`: `in_degree[neighbor] -= 1`, with an
enqueue when the count hits zero (the entry always exists when reached from
a key node; `getD` is a defensive default). -/
def raTopoStep (st : List (Int × Int) × List Int) (nb : Int) :
    List (Int × Int) × List Int :=
  let v := (alookup st.1 nb).getD 0 - 1
  (ainsert st.1 nb v, if v = 0 then st.2 ++ [nb] else st.2)

/-- Queue loop of `resource_allocation.topological_sort`; `none` models the
`KeyError` raised by `graph[node]` when a queued node is not a key. -/
def raTopoLoop (graph : List (Int × List Int)) :
    Nat → List (Int × Int) → List Int → List Int → Option (List Int)
  | 0, _, _, res => some res
  | fuel + 1, indeg, q, res =>
      match q with
      | [] => some res
      | node :: qrest =>
          match alookup graph node with
          | none => none
          | some nbs =>
              let st := nbs.foldl raTopoStep (indeg, qrest)
              raTopoLoop graph fuel st.1 st.2 (res ++ [node])

/-- `resource_allocation.topological_sort`; the result is `none` exactly
when the source would raise `KeyError`. -/
def raTopoSort (graph : List (Int × List Int)) : Option (List Int) :=
  let keys := graph.map Prod.fst
  let indeg0 : List (Int × Int) := keys.foldl (fun acc k => ainsert acc k 0) []
  let indeg := graph.foldl
    (fun acc kp =>
      kp.2.foldl (fun a nb => ainsert a nb ((alookup a nb).getD 0 + 1)) acc) indeg0
  let queue := keys.filter fun k => decide ((alookup indeg k).getD 0 = 0)
  match raTopoLoop graph (2 * graph.length + 2) indeg queue [] with
  | none => none
  | some res =>
      let res2 :=
        if res.length ≠ graph.length then res ++ keys.filter (fun k => decide (k ∉ res))
        else res
      some res2.reverse

/-- Node number of a task id under the id-to-node map (the unchecked
Python dict access `task_mapping[task_id]`). -/
def nodeOf (m : List (Int × Nat)) (x : Int) : Nat := (alookup m x).getD 0

/-- Predecessor edge of a task list as the original C2 claim reads it:
`p → t` when some task with id `t` lists `p` among its decoded
predecessors. -/
def PredEdge (tasks : List Task) (p t : Int) : Prop :=
  (∃ tk ∈ tasks, tk.id = some t) ∧ p ∈ getTaskDependencies tasks t

/-- Predecessor edge restricted to listing tasks that also carry a
`duration` field (the tasks whose edges `_build_graph` registers). -/
def PredEdgeD (tasks : List Task) (p t : Int) : Prop :=
  (∃ tk ∈ tasks, tk.id = some t ∧ tk.duration.isSome = true) ∧
    p ∈ getTaskDependencies tasks t ∧ (∃ tk ∈ tasks, tk.id = some p)

/-- Nonempty path along `PredEdge`. -/
inductive PredPath (tasks : List Task) : Int → Int → Prop
  | single {p t : Int} : PredEdge tasks p t → PredPath tasks p t
  | cons {p q t : Int} : PredEdge tasks p q → PredPath tasks q t → PredPath tasks p t

/-- Nonempty path along `PredEdgeD`. -/
inductive PredPathD (tasks : List Task) : Int → Int → Prop
  | single {p t : Int} : PredEdgeD tasks p t → PredPathD tasks p t
  | cons {p q t : Int} : PredEdgeD tasks p q → PredPathD tasks q t → PredPathD tasks p t

/-- Edge of the node graph. -/
def NEdge (g : List (List (Nat × Int))) (a b : Nat) : Prop :=
  ∃ w, (b, w) ∈ g.getD a []

/-- Nonempty path in the node graph. -/
inductive NPath (g : List (List (Nat × Int))) : Nat → Nat → Prop
  | single {a b : Nat} : NEdge g a b → NPath g a b
  | cons {a b c : Nat} : NEdge g a b → NPath g b c → NPath g a c

/-- Finishing-order invariant of the depth-first search: every finished
node's neighbors are finished strictly earlier in the finish list. -/
def GoodF (g : List (List (Nat × Int))) (F : List Nat) : Prop :=
  ∀ u ∈ F, ∀ v, NEdge g u v → v ∈ F ∧ posIn F v < posIn F u

/-- Order constraint of one dependency pair in a date map: whenever `p` is
a listed predecessor of `q` and both are dated, `q` starts strictly after
`p` ends. -/
def PairOK (deps : List (Int × List Int)) (D : DMap) (q p : Int) : Prop :=
  p ∈ (alookup deps q).getD [] →
  ∀ dq dp : Int × Int, alookup D q = some dq → alookup D p = some dp → dp.2 < dq.1

/-- Specification bundle of one `_update_dependent_tasks` call rooted at
`t`, relating the input map `D` to the output map `D2`: keys are
preserved, starts never move earlier, entries of rank at most `rank t`
are untouched, every dated dependent of `t` ends up starting after `t`'s
end, and order constraints that held before still hold after. -/
def CascadeOK (deps : List (Int × List Int)) (taskDict : List (Int × Task))
    (rank : Int → Nat) (D D2 : DMap) (t : Int) : Prop :=
  (∀ x : Int, (alookup D2 x).isSome = (alookup D x).isSome) ∧
  (∀ x dx2, alookup D2 x = some dx2 → ∃ dx, alookup D x = some dx ∧ dx.1 ≤ dx2.1) ∧
  (∀ x, rank x ≤ rank t → alookup D2 x = alookup D x) ∧
  (∀ q, t ∈ (alookup deps q).getD [] → (alookup taskDict q).isSome = true →
    ∀ d0, alookup D t = some d0 → ∀ dq2, alookup D2 q = some dq2 → d0.2 < dq2.1) ∧
  (∀ q p, (alookup taskDict q).isSome = true → PairOK deps D q p → PairOK deps D2 q p)

/-- Executable consistency check of a date map against a dependency map:
every entry that its own key's lookup reaches starts strictly after the
end of each of its dated predecessors. -/
def consistentB (D : DMap) (deps : List (Int × List Int)) : Bool :=
  D.all fun pr =>
    if alookup D pr.1 = some pr.2 then
      ((alookup deps pr.1).getD []).all fun p =>
        match alookup D p with
        | none => true
        | some dp => decide (dp.2 < pr.2.1)
    else true

/-- Invariant of the queue loop of `NetworkModel._topological_sort`: the
emitted prefix together with the queue is duplicate-free, queued tasks
come from the task list, and any id already emitted or queued has a
non-positive remaining count (so it can never be enqueued again). -/
def TInv (taskList : List Task) (sorted : List Task)
    (st : List (Int × Int) × List Task) : Prop :=
  (sorted ++ st.2).Nodup ∧
  (∀ t ∈ st.2, t ∈ taskList) ∧
  (∀ i v, alookup st.1 i = some v →
    (∃ t, t ∈ sorted ++ st.2 ∧ t.id = some i) → v ≤ 0)

/-! Concrete instances used by the scenario theorems and the witnesses.
Day 0 is Monday 2025-01-06, so day 2 is 2025-01-08, day 3 is 2025-01-09
and day 4 is 2025-01-10. -/

/-- Task A of the three-task scenario: duration 3, no predecessors. -/
def taskA : Task := { id := some 1, duration := some 3, predecessors := .plist [], employeeId := none }

/-- Task B of the three-task scenario: duration 2, predecessor A. -/
def taskB : Task := { id := some 2, duration := some 2, predecessors := .plist [1], employeeId := none }

/-- Task C of the three-task scenario: duration 1, predecessor A. -/
def taskC : Task := { id := some 3, duration := some 1, predecessors := .plist [1], employeeId := none }

/-- The three-task scenario of the spec. -/
def scenarioTasks : List Task := [taskA, taskB, taskC]

/-- Cyclic pair where the second task lacks a `duration` key. -/
def cycNoDurTasks : List Task :=
  [ { id := some 1, duration := some 1, predecessors := .plist [2], employeeId := none },
    { id := some 2, duration := none, predecessors := .plist [1], employeeId := none } ]

/-- Cyclic pair where both tasks carry a `duration`. -/
def cycTasks : List Task :=
  [ { id := some 1, duration := some 1, predecessors := .plist [2], employeeId := none },
    { id := some 2, duration := some 4, predecessors := .plist [1], employeeId := none } ]

/-- Two-task chain used to refute the claimed simple-mode start formula:
the dependent task's own node has early time 2, yet its mapped start is
the project start. -/
def chainTasks : List Task :=
  [ { id := some 1, duration := some 1, predecessors := .plist [], employeeId := none },
    { id := some 2, duration := some 2, predecessors := .plist [1], employeeId := none } ]

/-- A task with a serialized predecessor list, for the decoding witness. -/
def serializedTask : Task :=
  { id := some 5, duration := some 1, predecessors := .pstr (.jlist [7]), employeeId := none }

/-- A task with no id, for the empty-graph witness. -/
def idlessTask : Task := { id := none, duration := some 2, predecessors := .pabsent, employeeId := none }

/-- Single task of duration 2 used as the days-off failing input. -/
def dofTask : Task := { id := some 1, duration := some 2, predecessors := .plist [], employeeId := none }

/-- The days-off list covering every weekday. -/
def allOffDays : List Int := [1, 2, 3, 4, 5, 6, 7]

/-- An employee service reporting every weekday as a day off. -/
def allOffSvc : Int → Option (List Int) := fun _ => some allOffDays

/-- Availability of a person whose days off are Saturday and Sunday. -/
def weekendOff : Int → Bool := fun d => decide (wd d ≠ 6 ∧ wd d ≠ 7)

/-- Concrete, already consistent date map for the idempotence witness. -/
def consDates : DMap := [(1, (0, 2)), (2, (3, 4)), (3, (5, 5))]

/-- Dependency map of the idempotence and correction witnesses. -/
def consDeps : List (Int × List Int) := [(1, []), (2, [1]), (3, [2])]

/-- Task dict of the idempotence and correction witnesses. -/
def consDict : List (Int × Task) :=
  [ (1, { id := some 1, duration := some 3, predecessors := .plist [], employeeId := none }),
    (2, { id := some 2, duration := some 2, predecessors := .plist [1], employeeId := none }),
    (3, { id := some 3, duration := some 1, predecessors := .plist [2], employeeId := none }) ]

/-- An inconsistent date map for the correction witness: task 2 starts
before its predecessor 1 ends. -/
def inconsDates : DMap := [(1, (0, 4)), (2, (1, 2)), (3, (2, 2))]

/-- Rank function witnessing acyclicity of `consDeps`. -/
def consRank : Int → Nat := fun i => i.toNat

/-! Association-list and list-update lemmas. -/

theorem alookup_ainsert {κ β : Type} [DecidableEq κ] (l : List (κ × β)) (k : κ) (v : β)
    (x : κ) : alookup (ainsert l k v) x = if x = k then some v else alookup l x := by
  induction l with
  | nil => simp [ainsert, alookup]
  | cons p rest ih =>
      obtain ⟨k0, v0⟩ := p
      by_cases h0 : k0 = k
      · subst h0
        by_cases hx : x = k0 <;> simp [ainsert, alookup, hx]
      · by_cases hx : x = k0
        · subst hx
          simp [ainsert, alookup, h0]
        · simp [ainsert, alookup, h0, hx, ih]

theorem alookup_ainsert_self {κ β : Type} [DecidableEq κ] (l : List (κ × β)) (k : κ) (v : β) :
    alookup (ainsert l k v) k = some v := by
  simp [alookup_ainsert]

theorem alookup_ainsert_ne {κ β : Type} [DecidableEq κ] (l : List (κ × β)) (k : κ) (v : β)
    (x : κ) (h : x ≠ k) : alookup (ainsert l k v) x = alookup l x := by
  simp [alookup_ainsert, h]

theorem alookup_mem {κ β : Type} [DecidableEq κ] (l : List (κ × β)) (k : κ) (v : β)
    (h : alookup l k = some v) : (k, v) ∈ l := by
  induction l with
  | nil => simp [alookup] at h
  | cons p rest ih =>
      obtain ⟨k0, v0⟩ := p
      by_cases hk : k = k0
      · subst hk
        simp only [alookup, if_pos rfl] at h
        injection h with h2
        subst h2
        exact List.mem_cons_self _ _
      · simp only [alookup, if_neg hk] at h
        exact List.mem_cons_of_mem _ (ih h)

theorem alookup_isSome_iff_mem_keys {κ β : Type} [DecidableEq κ] (l : List (κ × β)) (k : κ) :
    (alookup l k).isSome = true ↔ k ∈ l.map Prod.fst := by
  induction l with
  | nil => simp [alookup]
  | cons p rest ih =>
      obtain ⟨k0, v0⟩ := p
      simp only [alookup, List.map_cons, List.mem_cons]
      by_cases hk : k = k0
      · subst hk
        simp
      · simp [hk, ih]

theorem alookup_eq_none_of_not_mem {κ β : Type} [DecidableEq κ] (l : List (κ × β)) (k : κ)
    (h : k ∉ l.map Prod.fst) : alookup l k = none := by
  rcases ho : alookup l k with _ | v
  · rfl
  · exact absurd ((alookup_isSome_iff_mem_keys l k).1 (by simp [ho])) h

theorem updAt_oob {α : Type} (l : List α) (n : Nat) (f : α → α) (h : l.length ≤ n) :
    updAt l n f = l := by
  induction l generalizing n with
  | nil => rfl
  | cons a rest ih =>
      cases n with
      | zero => simp at h
      | succ m =>
          simp only [updAt, List.cons.injEq, true_and]
          exact ih m (by simpa using h)

theorem length_updAt {α : Type} (l : List α) (n : Nat) (f : α → α) :
    (updAt l n f).length = l.length := by
  induction l generalizing n with
  | nil => rfl
  | cons a rest ih =>
      cases n with
      | zero => simp [updAt]
      | succ m => simp [updAt, ih]

theorem getD_updAt_self {α : Type} (l : List α) (n : Nat) (f : α → α) (d : α)
    (h : n < l.length) : (updAt l n f).getD n d = f (l.getD n d) := by
  induction l generalizing n with
  | nil => simp at h
  | cons a rest ih =>
      cases n with
      | zero => simp [updAt]
      | succ m =>
          simp only [updAt, List.getD_cons_succ]
          exact ih m (by simpa using h)

theorem getD_updAt_ne {α : Type} (l : List α) (n : Nat) (f : α → α) (d : α) (m : Nat)
    (h : m ≠ n) : (updAt l n f).getD m d = l.getD m d := by
  induction l generalizing n m with
  | nil => rfl
  | cons a rest ih =>
      cases n with
      | zero =>
          cases m with
          | zero => exact absurd rfl h
          | succ j => simp [updAt]
      | succ k =>
          cases m with
          | zero => simp [updAt]
          | succ j =>
              simp only [updAt, List.getD_cons_succ]
              exact ih k j (by omega)

theorem mem_getD_updAt_append {α : Type} (l : List (List α)) (n : Nat) (y : α) (m : Nat)
    (x : α) (h : x ∈ l.getD m []) : x ∈ (updAt l n (fun t => t ++ [y])).getD m [] := by
  by_cases hmn : m = n
  · subst hmn
    by_cases hlt : m < l.length
    · rw [getD_updAt_self l m _ [] hlt]
      exact List.mem_append_left _ h
    · rw [updAt_oob l m _ (by omega)]
      exact h
  · rw [getD_updAt_ne l n _ [] m hmn]
    exact h

theorem posIn_append_left (F G : List Nat) (x : Nat) (h : x ∈ F) :
    posIn (F ++ G) x = posIn F x := by
  induction F with
  | nil => simp at h
  | cons a rest ih =>
      simp only [List.cons_append, posIn]
      by_cases hx : x = a
      · simp [hx]
      · rcases List.mem_cons.1 h with h1 | h2
        · exact absurd h1 hx
        · simp [hx, ih h2]

theorem posIn_lt_length (F : List Nat) (x : Nat) (h : x ∈ F) : posIn F x < F.length := by
  induction F with
  | nil => simp at h
  | cons a rest ih =>
      simp only [posIn, List.length_cons]
      by_cases hx : x = a
      · simp [hx]
      · rcases List.mem_cons.1 h with h1 | h2
        · exact absurd h1 hx
        · simp only [if_neg hx]
          exact Nat.succ_lt_succ (ih h2)

theorem posIn_append_self (F : List Nat) (x : Nat) (h : x ∉ F) :
    posIn (F ++ [x]) x = F.length := by
  induction F with
  | nil => simp [posIn]
  | cons a rest ih =>
      have hq : x ≠ a := fun hc => h (hc ▸ List.mem_cons_self a rest)
      simp only [List.cons_append, posIn, List.length_cons, if_neg hq]
      exact congrArg (fun y => y + 1) (ih fun hc => h (List.mem_cons_of_mem _ hc))

/-! C7: predecessor decoding. -/

/-- C7: for every value of a task's predecessors field the decoding step
of `NetworkModel._get_task_dependencies` is total (the embedding is a
total function, mirroring that the source catches `json.JSONDecodeError`
and normalizes non-list decodes): a native list and a string decoding to
a list are returned as that list, while a failed decode, a non-list
decode, a non-list non-string value and an absent key all yield the empty
predecessor set; the search result of the id scan is decoded exactly this
way, and a missing match also yields the empty set. -/
theorem c7_decoding_total_and_safe (tasks : List Task) (tid : Int) :
    (∀ l : List Int, decodePreds (.plist l) = l) ∧
    (∀ l : List Int, decodePreds (.pstr (.jlist l)) = l) ∧
    decodePreds (.pstr .jother) = [] ∧
    decodePreds (.pstr .jerror) = [] ∧
    decodePreds .pother = [] ∧
    (∀ tk, firstWithPreds tasks tid = some tk →
      getTaskDependencies tasks tid = decodePreds tk.predecessors) ∧
    (firstWithPreds tasks tid = none → getTaskDependencies tasks tid = []) := by
  refine ⟨fun l => rfl, fun l => rfl, rfl, rfl, rfl, ?_, ?_⟩
  · intro tk h
    simp [getTaskDependencies, h]
  · intro h
    simp [getTaskDependencies, h]

/-- Witness: the decoding theorem applied to a task whose predecessors
arrive as a serialized list. -/
theorem c7_decoding_witness :
    getTaskDependencies [serializedTask] 5 = decodePreds serializedTask.predecessors ∧
    decodePreds (.pstr (.jlist [(7 : Int)])) = [(7 : Int)] :=
  ⟨(c7_decoding_total_and_safe [serializedTask] 5).2.2.2.2.2.1 serializedTask (by decide),
   (c7_decoding_total_and_safe [serializedTask] 5).2.1 [(7 : Int)]⟩

/-! C9: empty input. -/

theorem buildMaps_all_idless (ts : List Task) (m : List (Int × Nat))
    (r : List (Nat × Option Int)) (n : Nat) (h : ∀ t ∈ ts, t.id = none) :
    buildMaps ts m r n = (m, r, n) := by
  induction ts generalizing m r n with
  | nil => rfl
  | cons t rest ih =>
      have ht : t.id = none := h t (List.mem_cons_self _ _)
      simp only [buildMaps, ht]
      exact ih m r n fun t2 h2 => h t2 (List.mem_cons_of_mem _ h2)

/-- C9: an empty task list, and likewise a task list every member of which
is excluded from the graph for lack of an id, makes `calculate` return the
zero result: duration 0, empty critical path, empty date map, empty time
vectors and no error tag. -/
theorem c9_empty_graph_zero_result (ps : Int) (svc : Option (Int → Option (List Int)))
    (tasks : List Task) (h : ∀ t ∈ tasks, t.id = none) :
    calculate ps [] svc = emptyResult ∧ calculate ps tasks svc = emptyResult := by
  constructor
  · rfl
  · cases tasks with
    | nil => rfl
    | cons t rest =>
        have hbm := buildMaps_all_idless (t :: rest) [] [] 1 h
        simp only [calculate, buildGraph, List.isEmpty_cons, Bool.false_eq_true,
          if_false, hbm, if_pos rfl, List.isEmpty_nil, if_true]

/-- Witness: the zero result on a singleton task list whose task has no id. -/
theorem c9_empty_graph_witness :
    calculate 0 [idlessTask] none = emptyResult ∧ calculate 0 [] none = emptyResult :=
  ⟨(c9_empty_graph_zero_result 0 none [idlessTask] (by decide)).2,
   (c9_empty_graph_zero_result 0 none [idlessTask] (by decide)).1⟩

/-! C1: the three-task scenario. -/

/-- C1: on tasks A (duration 3, no predecessors), B (duration 2,
predecessor A) and C (duration 1, predecessor A), with project start
2025-01-06 (day 0 of the date encoding) and no days-off service,
`NetworkModel.calculate` dates A on 2025-01-06..2025-01-08 (days 0..2),
B on 2025-01-09..2025-01-10 (days 3..4) and C on 2025-01-09 (day 3),
returns critical path exactly A, B, project duration 5, and no error. -/
theorem c1_three_task_scenario :
    (calculate 0 scenarioTasks none).taskDates = [(1, (0, 2)), (2, (3, 4)), (3, (3, 3))] ∧
    (calculate 0 scenarioTasks none).criticalPath = [1, 2] ∧
    (calculate 0 scenarioTasks none).duration = 5 ∧
    (calculate 0 scenarioTasks none).error = none := by
  refine ⟨?_, ?_, ?_, ?_⟩ <;> decide

/-! C6: the calendar mapper. -/

theorem calcTaskDatesGo_notin (ps : Int) (early : List Int) (tasks : List Task)
    (mapping : List (Int × Nat)) (acc : DMap) (tid : Int)
    (h : tid ∉ mapping.map Prod.fst) :
    alookup (calcTaskDatesGo ps early tasks mapping acc) tid = alookup acc tid := by
  induction mapping generalizing acc with
  | nil => rfl
  | cons p rest ih =>
      have h1 : tid ≠ p.1 := fun hc => h (by simp [hc])
      have h2 : tid ∉ rest.map Prod.fst := fun hc => h (by simp [hc])
      rcases hft : firstTask tasks p.1 with _ | t
      · simp only [calcTaskDatesGo, hft]
        exact ih acc h2
      · simp only [calcTaskDatesGo, hft]
        rw [ih _ h2, alookup_ainsert_ne _ _ _ _ h1]

theorem calcTaskDatesGo_lookup (ps : Int) (early : List Int) (tasks : List Task)
    (mapping : List (Int × Nat)) (acc : DMap) (tid : Int) (nid : Nat) (tk : Task)
    (hnd : (mapping.map Prod.fst).Nodup) (hm : (tid, nid) ∈ mapping)
    (ht : firstTask tasks tid = some tk) :
    alookup (calcTaskDatesGo ps early tasks mapping acc) tid =
      some (ps + (if nid > 0 then early.getD (nid - 1) 0 else 0),
            ps + (if nid > 0 then early.getD (nid - 1) 0 else 0) + tk.duration.getD 1 - 1) := by
  induction mapping generalizing acc with
  | nil => simp at hm
  | cons p rest ih =>
      rcases List.mem_cons.1 hm with h1 | h1
      · cases h1
        have hout : tid ∉ rest.map Prod.fst := by
          simp only [List.map_cons, List.nodup_cons] at hnd
          exact hnd.1
        simp only [calcTaskDatesGo, ht]
        rw [calcTaskDatesGo_notin _ _ _ _ _ _ hout, alookup_ainsert_self]
      · have hnd2 : (rest.map Prod.fst).Nodup := by
          simp only [List.map_cons, List.nodup_cons] at hnd
          exact hnd.2
        rcases hft : firstTask tasks p.1 with _ | t
        · simp only [calcTaskDatesGo, hft]
          exact ih _ hnd2 h1
        · simp only [calcTaskDatesGo, hft]
          exact ih _ hnd2 h1

theorem dofCountDur_ge (off : List Int) (dur : Int) :
    ∀ (fuel : Nat) (w : Int) (cur r : Int), dofCountDur off dur fuel w cur = some r → cur ≤ r := by
  intro fuel
  induction fuel with
  | zero =>
      intro w cur r h
      simp [dofCountDur] at h
  | succ f ih =>
      intro w cur r h
      simp only [dofCountDur] at h
      by_cases hw : w < dur
      · rw [if_pos hw] at h
        have := ih _ _ _ h
        omega
      · rw [if_neg hw] at h
        injection h with h2
        omega

/-- C6 (amended): in simple mode the mapper dates a task at
`start = projectStart + early[(node - 1)]` (the early-times entry at the
index one below the task's node, which is what the source reads) and
`end = start + duration - 1`; consequently `end >= start` whenever
`duration >= 1`, and in days-off-aware mode every task the mapper manages
to date also satisfies `end >= start`. -/
theorem c6_calendar_mapper_dates (ps : Int) (early : List Int)
    (mapping : List (Int × Nat)) (tasks : List Task) (tid : Int) (nid : Nat)
    (tk : Task) (hnd : (mapping.map Prod.fst).Nodup) (hm : (tid, nid) ∈ mapping)
    (ht : firstTask tasks tid = some tk) :
    (alookup (calcTaskDates ps early mapping tasks) tid =
      some (ps + (if nid > 0 then early.getD (nid - 1) 0 else 0),
            ps + (if nid > 0 then early.getD (nid - 1) 0 else 0) + tk.duration.getD 1 - 1)) ∧
    (1 ≤ tk.duration.getD 1 → ∀ s e,
      alookup (calcTaskDates ps early mapping tasks) tid = some (s, e) → s ≤ e) ∧
    (∀ (off : List Int) (fuel : Nat) (ew dur : Int) (s e : Int),
      dofOne off fuel ps ew dur = some (s, e) → 1 ≤ dur → s ≤ e) := by
  have hmain : alookup (calcTaskDates ps early mapping tasks) tid =
      some (ps + (if nid > 0 then early.getD (nid - 1) 0 else 0),
            ps + (if nid > 0 then early.getD (nid - 1) 0 else 0) + tk.duration.getD 1 - 1) :=
    calcTaskDatesGo_lookup ps early tasks mapping [] tid nid tk hnd hm ht
  refine ⟨hmain, ?_, ?_⟩
  · intro hdur s e hse
    rw [hmain] at hse
    injection hse with h2
    have hs : s = ps + (if nid > 0 then early.getD (nid - 1) 0 else 0) :=
      (congrArg Prod.fst h2).symm
    have he : e = ps + (if nid > 0 then early.getD (nid - 1) 0 else 0) + tk.duration.getD 1 - 1 :=
      (congrArg Prod.snd h2).symm
    omega
  · intro off fuel ew dur s e hse _
    simp only [dofOne] at hse
    rcases h1 : dofSkipTo off fuel ps 0 ew with _ | cur
    · simp only [h1] at hse
      exact Option.noConfusion hse
    · simp only [h1] at hse
      rcases h2 : dofSkipOff off fuel (cur - 1) with _ | ts
      · simp only [h2] at hse
        exact Option.noConfusion hse
      · simp only [h2] at hse
        rcases h3 : dofCountDur off dur fuel 1 (ts + 1) with _ | cur2
        · simp only [h3] at hse
          exact Option.noConfusion hse
        · simp only [h3, Option.some.injEq] at hse
          have hge := dofCountDur_ge off dur fuel 1 (ts + 1) cur2 h3
          have hs : s = ts := (congrArg Prod.fst hse).symm
          have he : e = cur2 - 1 := (congrArg Prod.snd hse).symm
          omega

/-- C6 counterexample to the claim as stated: in the two-task chain the
dependent task's node is 2 and the early-times entry of that node is 2,
yet its mapped start is the project start (day 0), not project start plus
its node's early time. -/
theorem c6_start_formula_counterexample :
    alookup (buildGraph chainTasks).1 2 = some 2 ∧
    (earlyTimes (buildGraph chainTasks).2.2).getD 2 0 = 2 ∧
    alookup (calcTaskDates 0 (earlyTimes (buildGraph chainTasks).2.2)
      (buildGraph chainTasks).1 chainTasks) 2 = some (0, 1) ∧
    ¬ ((0 : Int) = 0 + 2) := by
  refine ⟨?_, ?_, ?_, ?_⟩ <;> decide

/-- Witness: the amended mapper formula applied to task B of the
three-task scenario. -/
theorem c6_calendar_mapper_witness :
    alookup (calcTaskDates 0 (earlyTimes (buildGraph scenarioTasks).2.2)
      (buildGraph scenarioTasks).1 scenarioTasks) 2 = some (0, 1) :=
  (c6_calendar_mapper_dates 0 (earlyTimes (buildGraph scenarioTasks).2.2)
    (buildGraph scenarioTasks).1 scenarioTasks 2 2 taskB (by decide) (by decide) (by decide)).1

/-! C5: the days-off iteration cap. -/

theorem wd_mem_allOffDays (d : Int) : wd d ∈ allOffDays := by
  have h1 : 0 ≤ d.emod 7 := Int.emod_nonneg d (by norm_num)
  have h2 : d.emod 7 < 7 := Int.emod_lt_of_pos d (by norm_num)
  simp only [wd, allOffDays, List.mem_cons, List.not_mem_nil, or_false]
  omega

theorem dofSkipOff_allOff_none (off : List Int) (hoff : ∀ d, wd d ∈ off) :
    ∀ (fuel : Nat) (d : Int), dofSkipOff off fuel d = none := by
  intro fuel
  induction fuel with
  | zero => intro d; rfl
  | succ f ih =>
      intro d
      simp only [dofSkipOff, if_pos (hoff d)]
      exact ih (d + 1)

theorem dofSkipTo_allOff_none (off : List Int) (hoff : ∀ d, wd d ∈ off) :
    ∀ (fuel : Nat) (cur : Int) (cnt tgt : Int), cnt < tgt →
      dofSkipTo off fuel cur cnt tgt = none := by
  intro fuel
  induction fuel with
  | zero => intro cur cnt tgt _; rfl
  | succ f ih =>
      intro cur cnt tgt hlt
      simp only [dofSkipTo, if_pos hlt, if_pos (hoff cur)]
      exact ih (cur + 1) cnt tgt hlt

/-- C5: the days-off calendar mapper of the network model has no
iteration cap at all: with a days-off configuration covering every
weekday its day-by-day loops never finish for any amount of fuel (the
fuel-free source loops forever), so the task is neither capped at
`duration * 3` iterations nor omitted; the sibling
`resource_allocation.calculate_dates_with_days_off` does implement the
`duration * 3` cap and returns `None` gracefully on the same
configuration. -/
theorem c5_days_off_mapper_unbounded :
    (∀ fuel : Nat, dofOne allOffDays fuel 0 0 2 = none) ∧
    (∀ fuel : Nat, dofSkipTo allOffDays fuel 0 0 1 = none) ∧
    raCalcDates (fun _ => false) dofTask 0 = none := by
  refine ⟨?_, ?_, by decide⟩
  · intro fuel
    cases fuel with
    | zero => rfl
    | succ f =>
        have h0 : dofSkipTo allOffDays (f + 1) 0 0 0 = some 0 := by
          simp [dofSkipTo]
        simp only [dofOne, h0,
          dofSkipOff_allOff_none allOffDays wd_mem_allOffDays (f + 1) (0 - 1)]
  · intro fuel
    exact dofSkipTo_allOff_none allOffDays wd_mem_allOffDays fuel 0 0 1 (by norm_num)

/-! C8: the forward availability search. -/

theorem faWindow_true_avail (avail : Int → Bool) :
    ∀ (r : Nat) (t e e2 : Int), faWindow avail r t e = (true, e2) →
      ∀ j : Nat, j < r → avail (t + j) = true := by
  intro r
  induction r with
  | zero =>
      intro t e e2 _ j hj
      exact absurd hj (Nat.not_lt_zero j)
  | succ n ih =>
      intro t e e2 h j hj
      simp only [faWindow] at h
      by_cases ha : avail t
      · rw [if_pos ha] at h
        cases j with
        | zero => simpa using ha
        | succ k =>
            have hk := ih (t + 1) t e2 h k (by omega)
            have harg : t + 1 + (k : Int) = t + ((k + 1 : Nat) : Int) := by push_cast; ring
            rwa [harg] at hk
      · rw [if_neg ha] at h
        exact absurd (congrArg Prod.fst h) (by simp)

theorem faWindow_true_end (avail : Int → Bool) :
    ∀ (r : Nat), 1 ≤ r → ∀ (t e e2 : Int), faWindow avail r t e = (true, e2) →
      e2 = t + r - 1 := by
  intro r
  induction r with
  | zero => intro h; omega
  | succ n ih =>
      intro _ t e e2 h
      simp only [faWindow] at h
      by_cases ha : avail t
      · rw [if_pos ha] at h
        cases n with
        | zero =>
            simp only [faWindow] at h
            have h2 : t = e2 := congrArg Prod.snd h
            push_cast
            omega
        | succ m =>
            have h2 := ih (by omega) (t + 1) t e2 h
            push_cast at h2 ⊢
            omega
      · rw [if_neg ha] at h
        exact absurd (congrArg Prod.fst h) (by simp)

theorem faWindow_false_bad (avail : Int → Bool) :
    ∀ (r : Nat) (t e e2 : Int), faWindow avail r t e = (false, e2) →
      ∃ j : Nat, j < r ∧ avail (t + j) = false := by
  intro r
  induction r with
  | zero =>
      intro t e e2 h
      simp [faWindow] at h
  | succ n ih =>
      intro t e e2 h
      simp only [faWindow] at h
      by_cases ha : avail t
      · rw [if_pos ha] at h
        obtain ⟨j, hj, hbad⟩ := ih (t + 1) t e2 h
        refine ⟨j + 1, by omega, ?_⟩
        have harg : t + 1 + (j : Int) = t + ((j + 1 : Nat) : Int) := by push_cast; ring
        rwa [harg] at hbad
      · refine ⟨0, by omega, ?_⟩
        have ha2 : avail t = false := by revert ha; cases avail t <;> simp
        simpa using ha2

theorem faGo_some_spec (avail : Int → Bool) (dur : Int) (hd : 1 ≤ dur) :
    ∀ (k : Nat) (cur e s en : Int), faGo avail dur k cur e = some (s, en) →
      cur ≤ s ∧ s < cur + k ∧ en = s + dur - 1 ∧
      (∀ j : Nat, j < dur.toNat → avail (s + j) = true) ∧
      (∀ c : Int, cur ≤ c → c < s → ∃ j : Nat, j < dur.toNat ∧ avail (c + j) = false) := by
  intro k
  induction k with
  | zero =>
      intro cur e s en h
      exact absurd h (by simp [faGo])
  | succ n ih =>
      intro cur e s en h
      simp only [faGo] at h
      by_cases ha : avail cur
      · rw [if_pos ha] at h
        rcases hw : faWindow avail dur.toNat cur e with ⟨b, e2⟩
        rw [hw] at h
        cases b
        · simp only at h
          obtain ⟨ih1, ih2, ih3, ih4, ih5⟩ := ih (cur + 1) e2 s en h
          refine ⟨by omega, by push_cast at ih2 ⊢; omega, ih3, ih4, ?_⟩
          intro c hc1 hc2
          by_cases hcc : c = cur
          · subst hcc
            obtain ⟨j, hj, hbad⟩ := faWindow_false_bad avail dur.toNat c e e2 hw
            exact ⟨j, hj, hbad⟩
          · exact ih5 c (by omega) hc2
        · simp only [Option.some.injEq] at h
          have hs : cur = s := congrArg Prod.fst h
          have he : e2 = en := congrArg Prod.snd h
          subst hs
          subst he
          have hr : 1 ≤ dur.toNat := by omega
          have hend := faWindow_true_end avail dur.toNat hr cur e e2 hw
          refine ⟨le_refl cur, by push_cast; omega, by omega, ?_, ?_⟩
          · exact faWindow_true_avail avail dur.toNat cur e e2 hw
          · intro c hc1 hc2
            omega
      · rw [if_neg ha] at h
        obtain ⟨ih1, ih2, ih3, ih4, ih5⟩ := ih (cur + 1) e s en h
        refine ⟨by omega, by push_cast at ih2 ⊢; omega, ih3, ih4, ?_⟩
        intro c hc1 hc2
        by_cases hcc : c = cur
        · subst hcc
          have ha2 : avail c = false := by revert ha; cases avail c <;> simp
          exact ⟨0, by omega, by simpa using ha2⟩
        · exact ih5 c (by omega) hc2

theorem faGo_none_spec (avail : Int → Bool) (dur : Int) (hd : 1 ≤ dur) :
    ∀ (k : Nat) (cur e : Int), faGo avail dur k cur e = none →
      ∀ c : Int, cur ≤ c → c < cur + k →
        ∃ j : Nat, j < dur.toNat ∧ avail (c + j) = false := by
  intro k
  induction k with
  | zero =>
      intro cur e _ c hc1 hc2
      omega
  | succ n ih =>
      intro cur e h c hc1 hc2
      simp only [faGo] at h
      by_cases ha : avail cur
      · rw [if_pos ha] at h
        rcases hw : faWindow avail dur.toNat cur e with ⟨b, e2⟩
        rw [hw] at h
        cases b
        · simp only at h
          by_cases hcc : c = cur
          · subst hcc
            obtain ⟨j, hj, hbad⟩ := faWindow_false_bad avail dur.toNat c e e2 hw
            exact ⟨j, hj, hbad⟩
          · exact ih (cur + 1) e2 h c (by omega) (by push_cast at hc2 ⊢; omega)
        · simp at h
      · rw [if_neg ha] at h
        by_cases hcc : c = cur
        · subst hcc
          have ha2 : avail c = false := by revert ha; cases avail c <;> simp
          exact ⟨0, by omega, by simpa using ha2⟩
        · exact ih (cur + 1) e h c (by omega) (by push_cast at hc2 ⊢; omega)

theorem firstWindow_all_none (startD dur : Int) :
    ∀ (cands : List (Int → Bool)),
      (∀ a ∈ cands, findAvailableDate a startD dur = none) →
      firstWindow cands startD dur = none := by
  intro cands h
  induction cands with
  | nil => rfl
  | cons a rest ih =>
      have ha := h a (List.mem_cons_self _ _)
      simp only [firstWindow, ha]
      exact ih fun b hb => h b (List.mem_cons_of_mem _ hb)

/-- C8: for every person availability, requested start and duration at
least 1, `find_available_date` either returns `(None, None)` after
exhausting the 60-candidate horizon — in which case no candidate day in
the horizon starts a fully available window, and the caller leaves the
task's dates unchanged — or returns a window `(s, e)` with `s` on or
after the requested start and within the horizon, `e = s + duration - 1`,
every day of `[s, e]` available, and no earlier candidate admitting a
fully available window. -/
theorem c8_forward_availability_search (avail : Int → Bool) (startD dur : Int)
    (hd : 1 ≤ dur) :
    (∀ s e : Int, findAvailableDate avail startD dur = some (s, e) →
      startD ≤ s ∧ s < startD + 60 ∧ e = s + dur - 1 ∧
      (∀ d : Int, s ≤ d → d ≤ e → avail d = true) ∧
      (∀ c : Int, startD ≤ c → c < s → ∃ d : Int, c ≤ d ∧ d ≤ c + dur - 1 ∧ avail d = false)) ∧
    (findAvailableDate avail startD dur = none →
      ∀ c : Int, startD ≤ c → c < startD + 60 →
        ∃ d : Int, c ≤ d ∧ d ≤ c + dur - 1 ∧ avail d = false) ∧
    (∀ (D : DMap) (tid : Int) (cands : List (Int → Bool)),
      (∀ a ∈ cands, findAvailableDate a startD dur = none) →
      applyShift D tid (firstWindow cands startD dur) = D) := by
  refine ⟨?_, ?_, ?_⟩
  · intro s e h
    obtain ⟨h1, h2, h3, h4, h5⟩ := faGo_some_spec avail dur hd 60 startD startD s e h
    refine ⟨h1, by push_cast at h2; omega, by omega, ?_, ?_⟩
    · intro d hd1 hd2
      have hj := h4 (d - s).toNat (by omega)
      rwa [show s + ((d - s).toNat : Int) = d by omega] at hj
    · intro c hc1 hc2
      obtain ⟨j, hj, hbad⟩ := h5 c hc1 hc2
      exact ⟨c + j, by omega, by omega, hbad⟩
  · intro h c hc1 hc2
    obtain ⟨j, hj, hbad⟩ := faGo_none_spec avail dur hd 60 startD startD h c hc1 (by push_cast; omega)
    exact ⟨c + j, by omega, by omega, hbad⟩
  · intro D tid cands h
    rw [firstWindow_all_none startD dur cands h]
    rfl

/-- Witness: the search applied to a Saturday-and-Sunday-off person, a
Friday start (day 4) and duration 3 finds the Monday-to-Wednesday window
days 7..9. -/
theorem c8_forward_availability_witness :
    findAvailableDate weekendOff 4 3 = some (7, 9) ∧ (4 : Int) ≤ 7 ∧ (9 : Int) = 7 + 3 - 1 := by
  have h := (c8_forward_availability_search weekendOff 4 3 (by norm_num)).1 7 9 (by decide)
  exact ⟨by decide, h.1, h.2.2.1⟩

/-! C10: the resource-allocation topological sort. -/

theorem nodup_append_singleton {α : Type} (l : List α) (a : α) (h1 : l.Nodup)
    (h2 : a ∉ l) : (l ++ [a]).Nodup := by
  induction l with
  | nil => simp
  | cons b rest ih =>
      simp only [List.nodup_cons] at h1
      have hba : b ∉ rest ++ [a] := by
        intro hc
        rcases List.mem_append.1 hc with hc1 | hc1
        · exact h1.1 hc1
        · rcases List.mem_singleton.1 hc1 with hc2
          exact h2 (hc2 ▸ List.mem_cons_self b rest)
      simp only [List.cons_append, List.nodup_cons]
      exact ⟨hba, ih h1.2 fun hc => h2 (List.mem_cons_of_mem _ hc)⟩

theorem nodup_subset_full {α : Type} [DecidableEq α] (res2 keys : List α)
    (hn : res2.Nodup) (hk : keys.Nodup)
    (hsub : ∀ x ∈ res2, x ∈ keys) (hlen : keys.length ≤ res2.length) :
    ∀ x, x ∈ res2 ↔ x ∈ keys := by
  have hsubF : res2.toFinset ⊆ keys.toFinset := by
    intro x hx
    simp only [List.mem_toFinset] at hx ⊢
    exact hsub x hx
  have hcard : keys.toFinset.card ≤ res2.toFinset.card := by
    rw [List.toFinset_card_of_nodup hn, List.toFinset_card_of_nodup hk]
    exact hlen
  have heq := Finset.eq_of_subset_of_card_le hsubF hcard
  intro x
  refine ⟨hsub x, fun hx => ?_⟩
  have hx2 : x ∈ keys.toFinset := List.mem_toFinset.2 hx
  rw [← heq] at hx2
  exact List.mem_toFinset.1 hx2

theorem raTopoStep_fold (keys res2 : List Int) :
    ∀ (nbs : List Int) (indeg : List (Int × Int)) (q : List Int),
      (∀ nb ∈ nbs, nb ∈ keys) →
      (res2 ++ q).Nodup →
      (∀ x ∈ res2 ++ q, x ∈ keys) →
      (∀ x ∈ res2 ++ q, (alookup indeg x).getD 0 ≤ 0) →
      (res2 ++ (nbs.foldl raTopoStep (indeg, q)).2).Nodup ∧
      (∀ x ∈ res2 ++ (nbs.foldl raTopoStep (indeg, q)).2, x ∈ keys) ∧
      (∀ x ∈ res2 ++ (nbs.foldl raTopoStep (indeg, q)).2,
        (alookup (nbs.foldl raTopoStep (indeg, q)).1 x).getD 0 ≤ 0) := by
  intro nbs
  induction nbs with
  | nil =>
      intro indeg q _ h1 h2 h3
      exact ⟨h1, h2, h3⟩
  | cons nb rest ih =>
      intro indeg q hmem h1 h2 h3
      have hrest : ∀ x ∈ rest, x ∈ keys := fun x hx => hmem x (List.mem_cons_of_mem _ hx)
      simp only [List.foldl_cons]
      by_cases hz : (alookup indeg nb).getD 0 - 1 = 0
      · have hstep : raTopoStep (indeg, q) nb =
            (ainsert indeg nb ((alookup indeg nb).getD 0 - 1), q ++ [nb]) := by
          simp [raTopoStep, hz]
        rw [hstep]
        have hnb_notmem : nb ∉ res2 ++ q := by
          intro hc
          have := h3 nb hc
          omega
        apply ih
        · exact hrest
        · have := nodup_append_singleton (res2 ++ q) nb h1 hnb_notmem
          rwa [List.append_assoc] at this
        · intro x hx
          rcases List.mem_append.1 hx with hx1 | hx1
          · exact h2 x (List.mem_append_left _ hx1)
          · rcases List.mem_append.1 hx1 with hx2 | hx2
            · exact h2 x (List.mem_append_right _ hx2)
            · rcases List.mem_singleton.1 hx2 with hx3
              exact hx3 ▸ hmem nb (List.mem_cons_self _ _)
        · intro x hx
          by_cases hxe : x = nb
          · subst hxe
            rw [alookup_ainsert_self]
            simp only [Option.getD_some]
            omega
          · rw [alookup_ainsert_ne _ _ _ _ hxe]
            have hx2 : x ∈ res2 ++ q := by
              rcases List.mem_append.1 hx with hx1 | hx1
              · exact List.mem_append_left _ hx1
              · rcases List.mem_append.1 hx1 with hx2 | hx2
                · exact List.mem_append_right _ hx2
                · exact absurd (List.mem_singleton.1 hx2) hxe
            exact h3 x hx2
      · have hstep : raTopoStep (indeg, q) nb =
            (ainsert indeg nb ((alookup indeg nb).getD 0 - 1), q) := by
          simp [raTopoStep, hz]
        rw [hstep]
        apply ih
        · exact hrest
        · exact h1
        · exact h2
        · intro x hx
          by_cases hxe : x = nb
          · subst hxe
            rw [alookup_ainsert_self]
            simp only [Option.getD_some]
            have := h3 x hx
            omega
          · rw [alookup_ainsert_ne _ _ _ _ hxe]
            exact h3 x hx

theorem raTopoLoop_spec (graph : List (Int × List Int))
    (hclosed : ∀ kp ∈ graph, ∀ p ∈ kp.2, p ∈ graph.map Prod.fst) :
    ∀ (fuel : Nat) (indeg : List (Int × Int)) (q res : List Int),
      (res ++ q).Nodup →
      (∀ x ∈ res ++ q, x ∈ graph.map Prod.fst) →
      (∀ x ∈ res ++ q, (alookup indeg x).getD 0 ≤ 0) →
      ∃ res2, raTopoLoop graph fuel indeg q res = some res2 ∧
        res2.Nodup ∧ (∀ x ∈ res2, x ∈ graph.map Prod.fst) := by
  intro fuel
  induction fuel with
  | zero =>
      intro indeg q res h1 h2 _
      exact ⟨res, rfl, (List.nodup_append.1 h1).1,
        fun x hx => h2 x (List.mem_append_left _ hx)⟩
  | succ n ih =>
      intro indeg q res h1 h2 h3
      cases q with
      | nil =>
          refine ⟨res, rfl, ?_, fun x hx => h2 x (List.mem_append_left _ hx)⟩
          simpa using h1
      | cons node qrest =>
          have hnodek : node ∈ graph.map Prod.fst :=
            h2 node (List.mem_append_right _ (List.mem_cons_self _ _))
          obtain ⟨nbs, hnbs⟩ :=
            Option.isSome_iff_exists.1 ((alookup_isSome_iff_mem_keys graph node).2 hnodek)
          have hnbsmem : ∀ p ∈ nbs, p ∈ graph.map Prod.fst :=
            hclosed (node, nbs) (alookup_mem graph node nbs hnbs)
          have hassoc : ∀ {α : Type} (l1 : List α) (a : α) (l2 : List α),
              (l1 ++ [a]) ++ l2 = l1 ++ (a :: l2) := by
            intro α l1 a l2
            rw [List.append_assoc]
            rfl
          have hstep := raTopoStep_fold (graph.map Prod.fst) (res ++ [node]) nbs indeg qrest
            hnbsmem
            (by rw [hassoc]; exact h1)
            (by rw [hassoc]; exact h2)
            (by rw [hassoc]; exact h3)
          obtain ⟨hn1, hn2, hn3⟩ := hstep
          obtain ⟨res2, hres2, hnn, hms⟩ := ih _ _ (res ++ [node]) hn1 hn2 hn3
          refine ⟨res2, ?_, hnn, hms⟩
          simp only [raTopoLoop, hnbs]
          exact hres2

/-- C10: on a dependency graph whose predecessor lists mention only keys
of the graph, `resource_allocation.topological_sort` returns a list
containing each key exactly once even in the presence of cycles (leftover
nodes are appended, not dropped); and on a graph with a predecessor id
that is not a key the function can raise `KeyError` (modelled as the
`none` result) instead of returning. -/
theorem c10_topological_sort (graph : List (Int × List Int))
    (hclosed : ∀ kp ∈ graph, ∀ p ∈ kp.2, p ∈ graph.map Prod.fst)
    (hkeys : (graph.map Prod.fst).Nodup) :
    (∃ l, raTopoSort graph = some l ∧ l.Nodup ∧
      (∀ x, x ∈ l ↔ x ∈ graph.map Prod.fst)) ∧
    raTopoSort [((1 : Int), [(2 : Int)])] = none := by
  refine ⟨?_, by decide⟩
  simp only [raTopoSort]
  set keys := graph.map Prod.fst with hkeysdef
  set indeg0 : List (Int × Int) := keys.foldl (fun acc k => ainsert acc k 0) [] with hi0
  set indeg := graph.foldl
    (fun acc kp =>
      kp.2.foldl (fun a nb => ainsert a nb ((alookup a nb).getD 0 + 1)) acc) indeg0 with hid
  set queue := keys.filter (fun k => decide ((alookup indeg k).getD 0 = 0)) with hq
  have hqsub : ∀ x ∈ queue, x ∈ keys := fun x hx => (List.mem_filter.1 hx).1
  have hloop := raTopoLoop_spec graph hclosed (2 * graph.length + 2) indeg queue []
    (by simpa using List.Nodup.filter _ hkeys)
    (by
      intro x hx
      simp only [List.nil_append] at hx
      exact hqsub x hx)
    (by
      intro x hx
      simp only [List.nil_append] at hx
      have := (List.mem_filter.1 hx).2
      simp only [decide_eq_true_eq] at this
      omega)
  obtain ⟨res2, hres2, hnodup, hsub⟩ := hloop
  refine ⟨(if res2.length ≠ graph.length then
      res2 ++ keys.filter (fun k => decide (k ∉ res2)) else res2).reverse, ?_, ?_, ?_⟩
  · rw [hres2]
  · by_cases hlen : res2.length ≠ graph.length
    · rw [if_pos hlen, List.nodup_reverse, List.nodup_append]
      refine ⟨hnodup, List.Nodup.filter _ hkeys, ?_⟩
      intro x hx hx2
      have := (List.mem_filter.1 hx2).2
      simp only [decide_eq_true_eq] at this
      exact this hx
    · rw [if_neg hlen]
      exact List.nodup_reverse.2 hnodup
  · intro x
    by_cases hlen : res2.length ≠ graph.length
    · rw [if_pos hlen, List.mem_reverse, List.mem_append, List.mem_filter]
      constructor
      · rintro (hx | ⟨hx, _⟩)
        · exact hsub x hx
        · exact hx
      · intro hx
        by_cases hxr : x ∈ res2
        · exact Or.inl hxr
        · exact Or.inr ⟨hx, by simpa using hxr⟩
    · rw [if_neg hlen, List.mem_reverse]
      push_neg at hlen
      exact nodup_subset_full res2 keys hnodup hkeys hsub (by rw [hlen]; simp [hkeysdef]) x

/-- Witness: the sort applied to a closed three-node graph, together with
the concrete `KeyError` input. -/
theorem c10_topological_sort_witness :
    (raTopoSort [((1 : Int), ([] : List Int)), (2, [1]), (3, [1])]).isSome = true ∧
    raTopoSort [((1 : Int), [(2 : Int)])] = none := by
  have h := c10_topological_sort [((1 : Int), ([] : List Int)), (2, [1]), (3, [1])]
    (by decide) (by decide)
  obtain ⟨⟨l, hl, _, _⟩, hk⟩ := h
  exact ⟨by rw [hl]; rfl, hk⟩

/-! C2: cycle detection.  The depth-first search of `_has_cycle` reports
no cycle only when every finished node's neighbors finish strictly
earlier, which forbids any cycle among the finished nodes; every node
with an outgoing edge is a graph key and hence gets finished. -/

theorem goodF_append (g : List (List (Nat × Int))) (F : List Nat) (u : Nat)
    (hg : GoodF g F) (hnb : ∀ v, NEdge g u v → v ∈ F) (hu : u ∉ F) :
    GoodF g (F ++ [u]) := by
  intro x hx v hedge
  rcases List.mem_append.1 hx with hx1 | hx1
  · obtain ⟨hv, hpos⟩ := hg x hx1 v hedge
    refine ⟨List.mem_append_left _ hv, ?_⟩
    rw [posIn_append_left F [u] v hv, posIn_append_left F [u] x hx1]
    exact hpos
  · have hxu : x = u := List.mem_singleton.1 hx1
    subst hxu
    have hv := hnb v hedge
    refine ⟨List.mem_append_left _ hv, ?_⟩
    rw [posIn_append_left F [x] v hv, posIn_append_self F x hu]
    exact posIn_lt_length F v hv

theorem dfsFold_false (g : List (List (Nat × Int))) (u : Nat) (S : List Nat)
    (recur : Nat → List Nat → Bool × List Nat)
    (hrec : ∀ (v : Nat) (F F2 : List Nat), recur v F = (false, F2) →
      GoodF g F → F.Nodup → (∀ x ∈ F, x ∉ v :: u :: S) → v ∉ u :: S →
      (∃ Δ, F2 = F ++ Δ) ∧ v ∈ F2 ∧ GoodF g F2 ∧ F2.Nodup ∧ (∀ x ∈ F2, x ∉ u :: S)) :
    ∀ (ns : List (Nat × Int)) (F F2 : List Nat),
      dfsFold recur (u :: S) u ns F = (false, F2) →
      GoodF g F → F.Nodup → (∀ x ∈ F, x ∉ u :: S) → u ∉ S →
      (∀ v, NEdge g u v → v ∈ F ∨ ∃ w, (v, w) ∈ ns) →
      (∃ Δ, F2 = F ++ Δ) ∧ u ∈ F2 ∧ GoodF g F2 ∧ F2.Nodup ∧ (∀ x ∈ F2, x ∉ S) := by
  intro ns
  induction ns with
  | nil =>
      intro F F2 h hg hnd hFS huS hpend
      have hF2 : F2 = F ++ [u] := by
        have := congrArg Prod.snd h
        exact this.symm
      have huF : u ∉ F := fun hc => hFS u hc (List.mem_cons_self _ _)
      subst hF2
      refine ⟨⟨[u], rfl⟩, List.mem_append_right _ (List.mem_cons_self _ _), ?_, ?_, ?_⟩
      · refine goodF_append g F u hg ?_ huF
        intro v hedge
        rcases hpend v hedge with hv | ⟨w, hw⟩
        · exact hv
        · exact absurd hw (List.not_mem_nil _)
      · exact nodup_append_singleton F u hnd huF
      · intro x hx
        rcases List.mem_append.1 hx with hx1 | hx1
        · exact fun hc => hFS x hx1 (List.mem_cons_of_mem _ hc)
        · have hxu : x = u := List.mem_singleton.1 hx1
          subst hxu
          exact huS
  | cons vw rest ih =>
      intro F F2 h hg hnd hFS huS hpend
      obtain ⟨v, w⟩ := vw
      simp only [dfsFold] at h
      by_cases hvis : v ∈ F ∨ v ∈ u :: S
      · rw [if_pos hvis] at h
        by_cases hstk : v ∈ u :: S
        · rw [if_pos hstk] at h
          exact absurd (congrArg Prod.fst h) (by simp)
        · rw [if_neg hstk] at h
          have hvF : v ∈ F := hvis.resolve_right hstk
          refine ih F F2 h hg hnd hFS huS ?_
          intro nb hedge
          rcases hpend nb hedge with hnb | ⟨w2, hw2⟩
          · exact Or.inl hnb
          · rcases List.mem_cons.1 hw2 with hw3 | hw3
            · have : nb = v := congrArg Prod.fst hw3
              exact Or.inl (this ▸ hvF)
            · exact Or.inr ⟨w2, hw3⟩
      · rw [if_neg hvis] at h
        push_neg at hvis
        rcases hrc : recur v F with ⟨b, F1⟩
        rw [hrc] at h
        cases b
        · simp only at h
          obtain ⟨⟨Δ1, hΔ1⟩, hvF1, hg1, hnd1, hS1⟩ := hrec v F F1 hrc hg hnd
            (by
              intro x hx
              intro hc
              rcases List.mem_cons.1 hc with hc1 | hc1
              · exact hvis.1 (hc1 ▸ hx)
              · exact hFS x hx hc1)
            hvis.2
          obtain ⟨⟨Δ2, hΔ2⟩, hu2, hg2, hnd2, hS2⟩ := ih F1 F2 h hg1 hnd1 hS1 huS
            (by
              intro nb hedge
              rcases hpend nb hedge with hnb | ⟨w2, hw2⟩
              · exact Or.inl (hΔ1 ▸ List.mem_append_left _ hnb)
              · rcases List.mem_cons.1 hw2 with hw3 | hw3
                · have : nb = v := congrArg Prod.fst hw3
                  exact Or.inl (this ▸ hvF1)
                · exact Or.inr ⟨w2, hw3⟩)
          refine ⟨⟨Δ1 ++ Δ2, ?_⟩, hu2, hg2, hnd2, hS2⟩
          rw [hΔ2, hΔ1, List.append_assoc]
        · simp only at h
          exact absurd (congrArg Prod.fst h) (by simp)

theorem dfsVisit_false (g : List (List (Nat × Int))) :
    ∀ (fuel : Nat) (u : Nat) (F S F2 : List Nat),
      dfsVisit g fuel u F S = (false, F2) →
      GoodF g F → F.Nodup → (∀ x ∈ F, x ∉ u :: S) → u ∉ S →
      (∃ Δ, F2 = F ++ Δ) ∧ u ∈ F2 ∧ GoodF g F2 ∧ F2.Nodup ∧ (∀ x ∈ F2, x ∉ S) := by
  intro fuel
  induction fuel with
  | zero =>
      intro u F S F2 h
      exact absurd (congrArg Prod.fst h) (by simp [dfsVisit])
  | succ n ih =>
      intro u F S F2 h hg hnd hFS huS
      simp only [dfsVisit] at h
      exact dfsFold_false g u S (fun v F2 => dfsVisit g n v F2 (u :: S))
        (fun v F0 F1 hr hg0 hnd0 hFS0 hvS0 => ih v F0 (u :: S) F1 hr hg0 hnd0 hFS0 hvS0)
        (g.getD u []) F F2 h hg hnd hFS huS
        (fun v hedge => Or.inr hedge)

theorem hasCycleLoop_false (g : List (List (Nat × Int))) (fuel : Nat) :
    ∀ (roots F : List Nat),
      hasCycleLoop g fuel roots F = false →
      GoodF g F → F.Nodup →
      ∃ F2, (∃ Δ, F2 = F ++ Δ) ∧ GoodF g F2 ∧ F2.Nodup ∧ ∀ r ∈ roots, r ∈ F2 := by
  intro roots
  induction roots with
  | nil =>
      intro F _ hg hnd
      exact ⟨F, ⟨[], by simp⟩, hg, hnd, by simp⟩
  | cons r rs ih =>
      intro F h hg hnd
      simp only [hasCycleLoop] at h
      by_cases hrF : r ∈ F
      · rw [if_pos hrF] at h
        obtain ⟨F2, ⟨Δ, hΔ⟩, hg2, hnd2, hroots⟩ := ih F h hg hnd
        refine ⟨F2, ⟨Δ, hΔ⟩, hg2, hnd2, ?_⟩
        intro x hx
        rcases List.mem_cons.1 hx with hx1 | hx1
        · subst hx1
          exact hΔ ▸ List.mem_append_left _ hrF
        · exact hroots x hx1
      · rw [if_neg hrF] at h
        rcases hv : dfsVisit g fuel r F [] with ⟨b, F1⟩
        rw [hv] at h
        cases b
        · simp only at h
          obtain ⟨⟨Δ1, hΔ1⟩, hrF1, hg1, hnd1, _⟩ := dfsVisit_false g fuel r F [] F1 hv hg hnd
            (by
              intro x hx hc
              rcases List.mem_cons.1 hc with hc1 | hc1
              · exact hrF (hc1 ▸ hx)
              · exact List.not_mem_nil x hc1)
            (List.not_mem_nil r)
          obtain ⟨F2, ⟨Δ2, hΔ2⟩, hg2, hnd2, hroots⟩ := ih F1 h hg1 hnd1
          refine ⟨F2, ⟨Δ1 ++ Δ2, by rw [hΔ2, hΔ1, List.append_assoc]⟩, hg2, hnd2, ?_⟩
          intro x hx
          rcases List.mem_cons.1 hx with hx1 | hx1
          · subst hx1
            exact hΔ2 ▸ List.mem_append_left _ hrF1
          · exact hroots x hx1
        · exact Bool.noConfusion h

theorem npath_pos_lt (g : List (List (Nat × Int))) (F : List Nat) (hg : GoodF g F) :
    ∀ (a b : Nat), NPath g a b → a ∈ F → b ∈ F ∧ posIn F b < posIn F a := by
  intro a b hpath
  induction hpath with
  | single hedge =>
      intro haF
      exact hg _ haF _ hedge
  | cons hedge _ ih =>
      intro haF
      obtain ⟨hxF, hpos1⟩ := hg _ haF _ hedge
      obtain ⟨hbF, hpos2⟩ := ih hxF
      exact ⟨hbF, Nat.lt_trans hpos2 hpos1⟩

theorem nedge_src_lt_length (g : List (List (Nat × Int))) (a b : Nat)
    (h : NEdge g a b) : a < g.length := by
  by_contra hc
  push_neg at hc
  obtain ⟨w, hw⟩ := h
  rw [List.getD_eq_default _ _ hc] at hw
  exact List.not_mem_nil _ hw

/-- Completeness of the cycle check: a `false` verdict rules out every
cycle in the node graph. -/
theorem hasCycle_false_no_cycle (g : List (List (Nat × Int)))
    (h : hasCycle g = false) : ∀ u, ¬ NPath g u u := by
  intro u hpath
  obtain ⟨F2, _, hg2, _, hroots⟩ := hasCycleLoop_false g (g.length + totalEdges g + 1)
    (List.range g.length) [] h (by intro x hx; simp at hx) List.nodup_nil
  have huF : u ∈ F2 := by
    have hlt : u < g.length := by
      cases hpath with
      | single hedge => exact nedge_src_lt_length g _ _ hedge
      | cons hedge _ => exact nedge_src_lt_length g _ _ hedge
    exact hroots u (List.mem_range.2 hlt)
  obtain ⟨_, hpos⟩ := npath_pos_lt g F2 hg2 u u hpath huF
  exact Nat.lt_irrefl _ hpos

theorem buildMaps_mono_lookup (x : Int) :
    ∀ (ts : List Task) (m : List (Int × Nat)) (r : List (Nat × Option Int)) (n : Nat),
      (alookup m x).isSome = true → (alookup (buildMaps ts m r n).1 x).isSome = true := by
  intro ts
  induction ts with
  | nil => intro m r n h; exact h
  | cons t rest ih =>
      intro m r n h
      rcases hid : t.id with _ | i
      · simp only [buildMaps, hid]
        exact ih m r n h
      · simp only [buildMaps, hid]
        apply ih
        rw [alookup_ainsert]
        by_cases hx : x = i
        · simp [hx]
        · simp only [if_neg hx]
          exact h

theorem buildMaps_adds (x : Int) :
    ∀ (ts : List Task) (m : List (Int × Nat)) (r : List (Nat × Option Int)) (n : Nat),
      (∃ tk ∈ ts, tk.id = some x) → (alookup (buildMaps ts m r n).1 x).isSome = true := by
  intro ts
  induction ts with
  | nil =>
      intro m r n h
      obtain ⟨tk, htk, _⟩ := h
      exact absurd htk (List.not_mem_nil tk)
  | cons t rest ih =>
      intro m r n h
      obtain ⟨tk, htk, hid⟩ := h
      rcases List.mem_cons.1 htk with h1 | h1
      · subst h1
        simp only [buildMaps, hid]
        apply buildMaps_mono_lookup
        rw [alookup_ainsert_self]
        rfl
      · rcases hid2 : t.id with _ | i
        · simp only [buildMaps, hid2]
          exact ih m r n ⟨tk, h1, hid⟩
        · simp only [buildMaps, hid2]
          exact ih _ _ _ ⟨tk, h1, hid⟩

theorem buildMaps_n_mono :
    ∀ (ts : List Task) (m : List (Int × Nat)) (r : List (Nat × Option Int)) (n : Nat),
      n ≤ (buildMaps ts m r n).2.2 := by
  intro ts
  induction ts with
  | nil => intro m r n; exact Nat.le_refl n
  | cons t rest ih =>
      intro m r n
      rcases hid : t.id with _ | i
      · simp only [buildMaps, hid]
        exact ih m r n
      · simp only [buildMaps, hid]
        exact Nat.le_trans (Nat.le_succ n) (ih _ _ _)

theorem buildMaps_gt_of_some :
    ∀ (ts : List Task) (m : List (Int × Nat)) (r : List (Nat × Option Int)) (n : Nat),
      (∃ tk ∈ ts, (tk.id).isSome = true) → n < (buildMaps ts m r n).2.2 := by
  intro ts
  induction ts with
  | nil =>
      intro m r n h
      obtain ⟨tk, htk, _⟩ := h
      exact absurd htk (List.not_mem_nil tk)
  | cons t rest ih =>
      intro m r n h
      rcases hid : t.id with _ | i
      · simp only [buildMaps, hid]
        obtain ⟨tk, htk, hs⟩ := h
        rcases List.mem_cons.1 htk with h1 | h1
        · subst h1
          rw [hid] at hs
          exact absurd hs (by simp)
        · exact ih m r n ⟨tk, h1, hs⟩
      · simp only [buildMaps, hid]
        exact Nat.lt_of_lt_of_le (Nat.lt_succ_self n) (buildMaps_n_mono rest _ _ _)

theorem buildMaps_val_lt :
    ∀ (ts : List Task) (m : List (Int × Nat)) (r : List (Nat × Option Int)) (n : Nat),
      (∀ k v, alookup m k = some v → v < n) →
      ∀ k v, alookup (buildMaps ts m r n).1 k = some v → v < (buildMaps ts m r n).2.2 := by
  intro ts
  induction ts with
  | nil =>
      intro m r n hb k v h
      exact hb k v h
  | cons t rest ih =>
      intro m r n hb k v h
      rcases hid : t.id with _ | i
      · simp only [buildMaps, hid] at h ⊢
        exact ih m r n hb k v h
      · simp only [buildMaps, hid] at h ⊢
        refine ih _ _ _ ?_ k v h
        intro k2 v2 h2
        rw [alookup_ainsert] at h2
        by_cases hk : k2 = i
        · rw [if_pos hk] at h2
          injection h2 with h3
          omega
        · rw [if_neg hk] at h2
          exact Nat.lt_trans (hb k2 v2 h2) (Nat.lt_succ_self n)

theorem getAll_fold_preserve (tasks : List Task) (i : Int) :
    ∀ (l : List Task) (acc : List (Int × List Int)),
      alookup acc i = some (getTaskDependencies tasks i) →
      alookup (l.foldl (getAllStep tasks) acc) i = some (getTaskDependencies tasks i) := by
  intro l
  induction l with
  | nil => intro acc h; exact h
  | cons t rest ih =>
      intro acc h
      simp only [List.foldl_cons]
      apply ih
      rcases hid : t.id with _ | j
      · simp only [getAllStep, hid]
        exact h
      · simp only [getAllStep, hid]
        rw [alookup_ainsert]
        by_cases hj : i = j
        · subst hj
          simp
        · rw [if_neg hj]
          exact h

theorem getAll_fold_found (tasks : List Task) (i : Int) :
    ∀ (l : List Task) (acc : List (Int × List Int)),
      (∃ t ∈ l, t.id = some i) →
      alookup (l.foldl (getAllStep tasks) acc) i = some (getTaskDependencies tasks i) := by
  intro l
  induction l with
  | nil =>
      intro acc h
      obtain ⟨t, ht, _⟩ := h
      exact absurd ht (List.not_mem_nil t)
  | cons t rest ih =>
      intro acc h
      obtain ⟨t2, ht2, hid2⟩ := h
      simp only [List.foldl_cons]
      rcases List.mem_cons.1 ht2 with h1 | h1
      · subst h1
        apply getAll_fold_preserve
        simp only [getAllStep, hid2]
        exact alookup_ainsert_self _ _ _
      · exact ih _ ⟨t2, h1, hid2⟩

theorem getAllDependencies_lookup (tasks : List Task) (i : Int)
    (h : ∃ t ∈ tasks, t.id = some i) :
    alookup (getAllDependencies tasks) i = some (getTaskDependencies tasks i) :=
  getAll_fold_found tasks i tasks [] h

theorem edgeAdd_length (m : List (Int × Nat)) (node : Nat) (d : Int)
    (g : List (List (Nat × Int))) (p : Int) : (edgeAdd m node d g p).length = g.length := by
  rcases h : alookup m p with _ | pn
  · simp [edgeAdd, h]
  · simp [edgeAdd, h, length_updAt]

theorem edgeAdd_fold_length (m : List (Int × Nat)) (node : Nat) (d : Int) :
    ∀ (deps : List Int) (g : List (List (Nat × Int))),
      (deps.foldl (edgeAdd m node d) g).length = g.length := by
  intro deps
  induction deps with
  | nil => intro g; rfl
  | cons p rest ih =>
      intro g
      simp only [List.foldl_cons]
      rw [ih, edgeAdd_length]

theorem edgeAdd_mem_mono (m : List (Int × Nat)) (node : Nat) (d : Int)
    (g : List (List (Nat × Int))) (p : Int) (a : Nat) (x : Nat × Int)
    (h : x ∈ g.getD a []) : x ∈ (edgeAdd m node d g p).getD a [] := by
  rcases hl : alookup m p with _ | pn
  · simpa [edgeAdd, hl] using h
  · simp only [edgeAdd, hl]
    exact mem_getD_updAt_append g pn (node, d) a x h

theorem edgeAdd_fold_mem_mono (m : List (Int × Nat)) (node : Nat) (d : Int) :
    ∀ (deps : List Int) (g : List (List (Nat × Int))) (a : Nat) (x : Nat × Int),
      x ∈ g.getD a [] → x ∈ (deps.foldl (edgeAdd m node d) g).getD a [] := by
  intro deps
  induction deps with
  | nil => intro g a x h; exact h
  | cons p rest ih =>
      intro g a x h
      simp only [List.foldl_cons]
      exact ih _ a x (edgeAdd_mem_mono m node d g p a x h)

theorem edgeAdd_fold_adds (m : List (Int × Nat)) (node : Nat) (d : Int) :
    ∀ (deps : List Int) (g : List (List (Nat × Int))) (p : Int) (pn : Nat),
      p ∈ deps → alookup m p = some pn → pn < g.length →
      (node, d) ∈ (deps.foldl (edgeAdd m node d) g).getD pn [] := by
  intro deps
  induction deps with
  | nil =>
      intro g p pn hp
      exact absurd hp (List.not_mem_nil p)
  | cons q rest ih =>
      intro g p pn hp hlk hlen
      simp only [List.foldl_cons]
      by_cases hq : q = p
      · subst hq
        have hstep : edgeAdd m node d g q = updAt g pn (fun l => l ++ [(node, d)]) := by
          simp [edgeAdd, hlk]
        rw [hstep]
        apply edgeAdd_fold_mem_mono
        rw [getD_updAt_self g pn _ [] hlen]
        exact List.mem_append_right _ (List.mem_singleton.2 rfl)
      · have hp2 : p ∈ rest := by
          rcases List.mem_cons.1 hp with h1 | h1
          · exact absurd h1.symm hq
          · exact h1
        refine ih _ p pn hp2 hlk ?_
        rw [edgeAdd_length]
        exact hlen

theorem edgeFold_cons_exists (tasks : List Task) (m : List (Int × Nat))
    (tdeps : List (Int × List Int)) (hd : List Int) (sink : Nat)
    (g : List (List (Nat × Int))) (t : Task) (rest : List Task) :
    ∃ g2, edgeFold tasks m tdeps hd sink g (t :: rest) = edgeFold tasks m tdeps hd sink g2 rest ∧
      g2.length = g.length ∧ (∀ (a : Nat) (x : Nat × Int), x ∈ g.getD a [] → x ∈ g2.getD a []) := by
  rcases hid : t.id with _ | i
  · exact ⟨g, by simp [edgeFold, hid], rfl, fun a x h => h⟩
  · rcases hdur : t.duration with _ | d
    · exact ⟨g, by simp [edgeFold, hid, hdur], rfl, fun a x h => h⟩
    · simp only [edgeFold, hid, hdur]
      set node := (alookup m i).getD 0 with hn
      set deps := (alookup tdeps i).getD [] with hdeps
      by_cases hde : deps = []
      · rw [if_pos hde]
        by_cases hmem : i ∈ hd
        · rw [if_pos hmem]
          refine ⟨updAt g 0 (fun l => l ++ [(node, 0)]), rfl, length_updAt g 0 _, ?_⟩
          intro a x h
          exact mem_getD_updAt_append g 0 (node, 0) a x h
        · rw [if_neg hmem]
          refine ⟨updAt (updAt g 0 (fun l => l ++ [(node, 0)])) node (fun l => l ++ [(sink, 0)]),
            rfl, by rw [length_updAt, length_updAt], ?_⟩
          intro a x h
          exact mem_getD_updAt_append _ node (sink, 0) a x
            (mem_getD_updAt_append g 0 (node, 0) a x h)
      · rw [if_neg hde]
        by_cases hmem : i ∈ hd
        · rw [if_pos hmem]
          refine ⟨deps.foldl (edgeAdd m node d) g, rfl, edgeAdd_fold_length m node d deps g, ?_⟩
          intro a x h
          exact edgeAdd_fold_mem_mono m node d deps g a x h
        · rw [if_neg hmem]
          refine ⟨updAt (deps.foldl (edgeAdd m node d) g) node (fun l => l ++ [(sink, 0)]),
            rfl, by rw [length_updAt, edgeAdd_fold_length], ?_⟩
          intro a x h
          exact mem_getD_updAt_append _ node (sink, 0) a x
            (edgeAdd_fold_mem_mono m node d deps g a x h)

theorem edgeFold_mem_mono (tasks : List Task) (m : List (Int × Nat))
    (tdeps : List (Int × List Int)) (hd : List Int) (sink : Nat) :
    ∀ (ts : List Task) (g : List (List (Nat × Int))) (a : Nat) (x : Nat × Int),
      x ∈ g.getD a [] → x ∈ (edgeFold tasks m tdeps hd sink g ts).getD a [] := by
  intro ts
  induction ts with
  | nil => intro g a x h; exact h
  | cons t rest ih =>
      intro g a x h
      obtain ⟨g2, heq, _, hmono⟩ := edgeFold_cons_exists tasks m tdeps hd sink g t rest
      rw [heq]
      exact ih g2 a x (hmono a x h)

theorem edgeFold_length (tasks : List Task) (m : List (Int × Nat))
    (tdeps : List (Int × List Int)) (hd : List Int) (sink : Nat) :
    ∀ (ts : List Task) (g : List (List (Nat × Int))),
      (edgeFold tasks m tdeps hd sink g ts).length = g.length := by
  intro ts
  induction ts with
  | nil => intro g; rfl
  | cons t rest ih =>
      intro g
      obtain ⟨g2, heq, hlen, _⟩ := edgeFold_cons_exists tasks m tdeps hd sink g t rest
      rw [heq, ih g2, hlen]

theorem edgeFold_adds (tasks : List Task) (m : List (Int × Nat))
    (tdeps : List (Int × List Int)) (hd : List Int) (sink : Nat)
    (t : Int) (d : Int) (p : Int) (pn tn : Nat)
    (hlkp : alookup m p = some pn) (hlkt : alookup m t = some tn)
    (hdep : p ∈ (alookup tdeps t).getD []) :
    ∀ (ts : List Task) (g : List (List (Nat × Int))),
      (∃ tk ∈ ts, tk.id = some t ∧ tk.duration = some d) → pn < g.length →
      (tn, d) ∈ (edgeFold tasks m tdeps hd sink g ts).getD pn [] := by
  intro ts
  induction ts with
  | nil =>
      intro g h
      obtain ⟨tk, htk, _⟩ := h
      exact absurd htk (List.not_mem_nil tk)
  | cons t2 rest ih =>
      intro g h hlen
      obtain ⟨tk, htk, hid, hdur⟩ := h
      rcases List.mem_cons.1 htk with h1 | h1
      · subst h1
        simp only [edgeFold, hid, hdur]
        have hde : (alookup tdeps t).getD [] ≠ [] := List.ne_nil_of_mem hdep
        rw [if_neg hde]
        have hnode : (alookup m t).getD 0 = tn := by rw [hlkt]; rfl
        rw [hnode]
        have hadd := edgeAdd_fold_adds m tn d ((alookup tdeps t).getD []) g p pn hdep hlkp hlen
        by_cases hmem : t ∈ hd
        · rw [if_pos hmem]
          exact edgeFold_mem_mono tasks m tdeps hd sink rest _ pn (tn, d) hadd
        · rw [if_neg hmem]
          refine edgeFold_mem_mono tasks m tdeps hd sink rest _ pn (tn, d) ?_
          exact mem_getD_updAt_append _ tn (sink, 0) pn (tn, d) hadd
      · obtain ⟨g2, heq, hlen2, _⟩ := edgeFold_cons_exists tasks m tdeps hd sink g t2 rest
        rw [heq]
        exact ih g2 ⟨tk, h1, hid, hdur⟩ (by rw [hlen2]; exact hlen)

theorem predEdgeD_nedge (ts : List Task) (p t : Int) (h : PredEdgeD ts p t) :
    NEdge (buildGraph ts).2.2 (nodeOf (buildGraph ts).1 p) (nodeOf (buildGraph ts).1 t) := by
  obtain ⟨⟨tk, htk, hid, hdur⟩, hdep, tk2, htk2, hid2⟩ := h
  have hne : ts.isEmpty = false := by
    cases ts with
    | nil => exact absurd htk (List.not_mem_nil tk)
    | cons a b => rfl
  rcases hbm : buildMaps ts [] [] 1 with ⟨M, R, N⟩
  have hN : 1 < N := by
    have := buildMaps_gt_of_some ts [] [] 1 ⟨tk, htk, by rw [hid]; rfl⟩
    rwa [hbm] at this
  have hBG : buildGraph ts =
      (M, ainsert R N none,
        edgeFold ts M (buildTaskDeps ts) (collectDependents ts) N
          (List.replicate (N + 1) []) ts) := by
    simp only [buildGraph, hne, Bool.false_eq_true, if_false, hbm]
    rw [if_neg (by omega)]
  obtain ⟨pn, hpn⟩ := Option.isSome_iff_exists.1
    (by
      have := buildMaps_adds p ts [] [] 1 ⟨tk2, htk2, hid2⟩
      rwa [hbm] at this)
  obtain ⟨tn, htn⟩ := Option.isSome_iff_exists.1
    (by
      have := buildMaps_adds t ts [] [] 1 ⟨tk, htk, hid⟩
      rwa [hbm] at this)
  obtain ⟨d, hd⟩ := Option.isSome_iff_exists.1 hdur
  have hvplt : pn < N := by
    have := buildMaps_val_lt ts [] [] 1 (by intro k v hv; exact absurd hv (by simp [alookup]))
      p pn
    rw [hbm] at this
    exact this hpn
  have hdep2 : p ∈ (alookup (buildTaskDeps ts) t).getD [] := by
    have := getAllDependencies_lookup ts t ⟨tk, htk, hid⟩
    simp only [buildTaskDeps, this, Option.getD_some]
    exact hdep
  have hadd := edgeFold_adds ts M (buildTaskDeps ts) (collectDependents ts) N t d p pn tn
    hpn htn hdep2 ts (List.replicate (N + 1) [])
    ⟨tk, htk, hid, hd⟩
    (by rw [List.length_replicate]; omega)
  rw [hBG]
  simp only [nodeOf, hpn, htn, Option.getD_some]
  exact ⟨d, hadd⟩

theorem predPathD_npath (ts : List Task) (a b : Int) (h : PredPathD ts a b) :
    NPath (buildGraph ts).2.2 (nodeOf (buildGraph ts).1 a) (nodeOf (buildGraph ts).1 b) := by
  induction h with
  | single hedge => exact NPath.single (predEdgeD_nedge ts _ _ hedge)
  | cons hedge _ ih => exact NPath.cons (predEdgeD_nedge ts _ _ hedge) ih

theorem predPathD_head_edge (ts : List Task) (a b : Int) (h : PredPathD ts a b) :
    ∃ p t, PredEdgeD ts p t := by
  cases h with
  | single hedge => exact ⟨_, _, hedge⟩
  | cons hedge _ => exact ⟨_, _, hedge⟩

/-- Cycle detection restricted to duration-carrying tasks: for every task
list whose predecessor edges among tasks that carry both an id and a
duration contain a directed cycle, `NetworkModel.calculate` returns the
result carrying the cyclic-dependency error tag, zero duration, and in
particular an empty critical path. -/
theorem c2_cycle_detection (ts : List Task) (ps : Int)
    (svc : Option (Int → Option (List Int))) (hcyc : ∃ u, PredPathD ts u u) :
    calculate ps ts svc = cycleResult := by
  obtain ⟨u, hpath⟩ := hcyc
  obtain ⟨p0, t0, hedge0⟩ := predPathD_head_edge ts u u hpath
  obtain ⟨⟨tk, htk, hid, _⟩, _, _⟩ := hedge0
  have hne : ts.isEmpty = false := by
    cases ts with
    | nil => exact absurd htk (List.not_mem_nil tk)
    | cons a b => rfl
  have hglen : (buildGraph ts).2.2.length ≠ 0 := by
    rcases hbm : buildMaps ts [] [] 1 with ⟨M, R, N⟩
    have hN : 1 < N := by
      have := buildMaps_gt_of_some ts [] [] 1 ⟨tk, htk, by rw [hid]; rfl⟩
      rwa [hbm] at this
    simp only [buildGraph, hne, Bool.false_eq_true, if_false, hbm]
    rw [if_neg (by omega)]
    rw [edgeFold_length, List.length_replicate]
    omega
  have hgE : (buildGraph ts).2.2.isEmpty = false := by
    rcases hgl : (buildGraph ts).2.2 with _ | ⟨hd2, tl2⟩
    · rw [hgl] at hglen
      simp at hglen
    · rfl
  have hcyc2 : hasCycle (buildGraph ts).2.2 = true := by
    by_contra hc
    have hfalse : hasCycle (buildGraph ts).2.2 = false := by
      revert hc
      cases hasCycle (buildGraph ts).2.2 <;> simp
    exact hasCycle_false_no_cycle _ hfalse _ (predPathD_npath ts u u hpath)
  simp only [calculate, hne, Bool.false_eq_true, if_false, hgE, hcyc2, if_true]

/-- The restricted cycle theorem applied to the two-task cycle in which
both tasks carry durations. -/
theorem c2_cycle_detection_witness : calculate 0 cycTasks none = cycleResult :=
  c2_cycle_detection cycTasks 0 none
    ⟨1, PredPathD.cons (show PredEdgeD cycTasks 1 2 by unfold PredEdgeD; decide)
      (PredPathD.single (show PredEdgeD cycTasks 2 1 by unfold PredEdgeD; decide))⟩

/-- On the dependency map of `cycNoDurTasks` (tasks 1 and 2 list each
other as predecessors), once both tasks are dated and the dependent's
start does not exceed the shifted task's end, the cascading recursion of
`_update_dependent_tasks` never terminates: `cascadeD` returns the
exhausted-fuel sentinel at every fuel, from either starting task, because
each shift re-violates the other task. -/
theorem cascadeD_cyc_none : ∀ fuel : Nat,
    (∀ (D : DMap) (dt dq : Int × Int), alookup D 1 = some dt → alookup D 2 = some dq →
      dt.1 ≤ dt.2 → dq.1 ≤ dt.2 →
      cascadeD (getAllDependencies cycNoDurTasks) (mkTaskDict cycNoDurTasks)
        fuel 1 D = none) ∧
    (∀ (D : DMap) (dt dq : Int × Int), alookup D 2 = some dt → alookup D 1 = some dq →
      dt.1 ≤ dt.2 → dq.1 ≤ dt.2 →
      cascadeD (getAllDependencies cycNoDurTasks) (mkTaskDict cycNoDurTasks)
        fuel 2 D = none) := by
  intro fuel
  induction fuel with
  | zero => exact ⟨fun D dt dq _ _ _ _ => rfl, fun D dt dq _ _ _ _ => rfl⟩
  | succ fuel ih =>
      constructor
      · intro D dt dq hlt hlq hwf hviol
        have hde : ((getAllDependencies cycNoDurTasks).filter
            fun kp => decide ((1 : Int) ∈ kp.2)).map Prod.fst = [2] := by decide
        have hdq2 : alookup (mkTaskDict cycNoDurTasks) (2 : Int) =
            some ⟨some 2, none, PredField.plist [1], none⟩ := by decide
        simp only [cascadeD, hde, hlt]
        rw [if_neg (List.cons_ne_nil 2 [])]
        simp only [cascadeFoldD, hlq, hdq2, Option.getD_none]
        rw [if_pos hviol]
        have hrec := ih.2 (ainsert D 2 (dt.2 + 1, dt.2 + 1 + 1 - 1))
          (dt.2 + 1, dt.2 + 1 + 1 - 1) dt (alookup_ainsert_self D 2 _)
          (by rw [alookup_ainsert_ne D 2 _ 1 (by decide)]; exact hlt)
          (by show dt.2 + 1 ≤ dt.2 + 1 + 1 - 1; omega)
          (by show dt.1 ≤ dt.2 + 1 + 1 - 1; omega)
        rw [hrec]
      · intro D dt dq hlt hlq hwf hviol
        have hde : ((getAllDependencies cycNoDurTasks).filter
            fun kp => decide ((2 : Int) ∈ kp.2)).map Prod.fst = [1] := by decide
        have hdq1 : alookup (mkTaskDict cycNoDurTasks) (1 : Int) =
            some ⟨some 1, some 1, PredField.plist [2], none⟩ := by decide
        simp only [cascadeD, hde, hlt]
        rw [if_neg (List.cons_ne_nil 1 [])]
        simp only [cascadeFoldD, hlq, hdq1, Option.getD_some]
        rw [if_pos hviol]
        have hrec := ih.1 (ainsert D 1 (dt.2 + 1, dt.2 + 1 + 1 - 1))
          (dt.2 + 1, dt.2 + 1 + 1 - 1) dt (alookup_ainsert_self D 1 _)
          (by rw [alookup_ainsert_ne D 1 _ 2 (by decide)]; exact hlt)
          (by show dt.2 + 1 ≤ dt.2 + 1 + 1 - 1; omega)
          (by show dt.1 ≤ dt.2 + 1 + 1 - 1; omega)
        rw [hrec]

/-- C2 (code bug): tasks 1 and 2 of `cycNoDurTasks` list each other as
predecessors, so the predecessor edges contain a directed cycle; yet task
2 carries no duration, `_build_graph` registers no edge for it and the
DFS cycle check reports no cycle, so `calculate` proceeds past the error
branch into the date corrector with dates 1 ↦ (0,0), 2 ↦ (1,1) — whose
first violation shifts task 1 to (2,2) and hands
`_update_dependent_tasks` a mutual 1⇄2 shifting recursion that returns at
no depth (the divergence-aware corrector yields the exhausted-fuel
sentinel at every fuel), so the run never produces the promised
cyclic-dependency error result. -/
theorem c2_cycle_divergence :
    PredPath cycNoDurTasks 1 1 ∧
    hasCycle (buildGraph cycNoDurTasks).2.2 = false ∧
    ∀ cf : Nat, correctDatesD cf
      (calcTaskDates 0 (earlyTimes (buildGraph cycNoDurTasks).2.2)
        (buildGraph cycNoDurTasks).1 cycNoDurTasks)
      (getAllDependencies cycNoDurTasks) (mkTaskDict cycNoDurTasks) = none := by
  refine ⟨?_, by decide, ?_⟩
  · exact PredPath.cons (show PredEdge cycNoDurTasks 1 2 by unfold PredEdge; decide)
      (PredPath.single (show PredEdge cycNoDurTasks 2 1 by unfold PredEdge; decide))
  · intro cf
    have hdiv := (cascadeD_cyc_none cf).1 [((1 : Int), ((2 : Int), (2 : Int))), (2, (1, 1))]
      (2, 2) (1, 1) (by decide) (by decide) (by decide) (by decide)
    have hstep : correctDatesD cf
        (calcTaskDates 0 (earlyTimes (buildGraph cycNoDurTasks).2.2)
          (buildGraph cycNoDurTasks).1 cycNoDurTasks)
        (getAllDependencies cycNoDurTasks) (mkTaskDict cycNoDurTasks) =
        (match cascadeD (getAllDependencies cycNoDurTasks) (mkTaskDict cycNoDurTasks) cf 1
            [((1 : Int), ((2 : Int), (2 : Int))), (2, (1, 1))] with
         | none => none
         | some D3 => mainCorrectD (getAllDependencies cycNoDurTasks)
             (mkTaskDict cycNoDurTasks) cf [⟨some 2, none, PredField.plist [1], none⟩] D3) :=
      rfl
    rw [hstep, hdiv]

/-! C4: idempotence of the dependency corrector. -/

theorem latestFold_lt (D : DMap) (s : Int) :
    ∀ (preds : List Int) (acc : Option Int),
      (∀ p ∈ preds, ∀ dp : Int × Int, alookup D p = some dp → dp.2 < s) →
      (∀ l, acc = some l → l < s) →
      ∀ l, preds.foldl (latestStep D) acc = some l → l < s := by
  intro preds
  induction preds with
  | nil =>
      intro acc _ hacc l h
      exact hacc l h
  | cons p rest ih =>
      intro acc hpre hacc l h
      simp only [List.foldl_cons] at h
      refine ih _ (fun q hq => hpre q (List.mem_cons_of_mem _ hq)) ?_ l h
      intro l2 h2
      rcases hlk : alookup D p with _ | pe
      · simp only [latestStep, hlk] at h2
        exact hacc l2 h2
      · simp only [latestStep, hlk] at h2
        rcases hac : acc with _ | l0
        · rw [hac] at h2
          simp only at h2
          injection h2 with h3
          have := hpre p (List.mem_cons_self _ _) pe hlk
          omega
        · rw [hac] at h2
          simp only at h2
          by_cases hgt : pe.2 > l0
          · rw [if_pos hgt] at h2
            injection h2 with h3
            have := hpre p (List.mem_cons_self _ _) pe hlk
            omega
          · rw [if_neg hgt] at h2
            exact hacc l2 (hac ▸ h2)

theorem latestPredEnd_lt (D : DMap) (preds : List Int) (s : Int)
    (h : ∀ p ∈ preds, ∀ dp : Int × Int, alookup D p = some dp → dp.2 < s) :
    ∀ l, latestPredEnd D preds = some l → l < s :=
  latestFold_lt D s preds none h (fun _ h2 => Option.noConfusion h2)

theorem consistentB_spec (D : DMap) (deps : List (Int × List Int))
    (h : consistentB D deps = true) :
    ∀ pr ∈ D, alookup D pr.1 = some pr.2 →
      ∀ p ∈ (alookup deps pr.1).getD [], ∀ dp : Int × Int,
        alookup D p = some dp → dp.2 < pr.2.1 := by
  intro pr hpr hlk p hp dp hdp
  simp only [consistentB, List.all_eq_true] at h
  have h2 := h pr hpr
  rw [if_pos hlk] at h2
  simp only [List.all_eq_true] at h2
  have h3 := h2 p hp
  rw [hdp] at h3
  simpa using h3

theorem mainCorrect_consistent (deps : List (Int × List Int))
    (taskDict : List (Int × Task)) (cf : Nat) :
    ∀ (l : List Task) (D : DMap),
      (∀ pr ∈ D, alookup D pr.1 = some pr.2 →
        ∀ p ∈ (alookup deps pr.1).getD [], ∀ dp : Int × Int,
          alookup D p = some dp → dp.2 < pr.2.1) →
      mainCorrect deps taskDict cf l D = D := by
  intro l
  induction l with
  | nil => intro D _; rfl
  | cons t rest ih =>
      intro D h
      rcases hid : t.id with _ | tid
      · simp only [mainCorrect, hid]
        exact ih D h
      · simp only [mainCorrect, hid]
        rcases hlk : alookup D tid with _ | sd
        · simp only [hlk]
          exact ih D h
        · simp only [hlk]
          rcases hle : latestPredEnd D ((alookup deps tid).getD []) with _ | L
          · simp only [hle]
            exact ih D h
          · simp only [hle]
            have hmem := alookup_mem D tid sd hlk
            have hcons := h (tid, sd) hmem hlk
            have hL : L < sd.1 := latestPredEnd_lt D _ sd.1 hcons L hle
            rw [if_neg (by omega : ¬ sd.1 ≤ L)]
            exact ih D h

/-- C4: the dependency corrector is idempotent: on a date map in which
every dated task starts strictly after the end of each of its dated
predecessors, `_correct_dates_for_dependencies` returns its input
unchanged, so a second application changes nothing relative to the first. -/
theorem c4_corrector_idempotent (cf : Nat) (D : DMap) (deps : List (Int × List Int))
    (taskDict : List (Int × Task)) (h : consistentB D deps = true) :
    correctDates cf D deps taskDict = D ∧
    correctDates cf (correctDates cf D deps taskDict) deps taskDict =
      correctDates cf D deps taskDict := by
  have hid : correctDates cf D deps taskDict = D := by
    simp only [correctDates]
    exact mainCorrect_consistent deps taskDict cf _ D (consistentB_spec D deps h)
  exact ⟨hid, by rw [hid, hid]⟩

/-- Witness: idempotence on a concrete consistent three-task date map. -/
theorem c4_corrector_idempotent_witness :
    consistentB consDates consDeps = true ∧
    correctDates 4 consDates consDeps consDict = consDates :=
  ⟨by decide, (c4_corrector_idempotent 4 consDates consDeps consDict (by decide)).1⟩

/-! C3: the cascading dependency correction.  The proof follows the code:
a shift of one task immediately cascades over all its dependents, so a
rank function decreasing along predecessor edges bounds the recursion and
every repaired pair stays repaired. -/

theorem latestFold_none (D : DMap) :
    ∀ (l : List Int) (acc : Option Int), l.foldl (latestStep D) acc = none →
      acc = none ∧ ∀ p ∈ l, alookup D p = none := by
  intro l
  induction l with
  | nil =>
      intro acc h
      exact ⟨h, by simp⟩
  | cons p rest ih =>
      intro acc h
      simp only [List.foldl_cons] at h
      obtain ⟨hstep, hrest⟩ := ih _ h
      have hp : alookup D p = none ∧ acc = none := by
        rcases hlk : alookup D p with _ | pe
        · refine ⟨rfl, ?_⟩
          simpa [latestStep, hlk] using hstep
        · exfalso
          rcases hac : acc with _ | l0
          · rw [hac] at hstep
            simp [latestStep, hlk] at hstep
          · rw [hac] at hstep
            by_cases hgt : pe.2 > l0 <;> simp [latestStep, hlk, hgt] at hstep
      refine ⟨hp.2, ?_⟩
      intro p2 hp2
      rcases List.mem_cons.1 hp2 with h1 | h1
      · exact h1 ▸ hp.1
      · exact hrest p2 h1

theorem latestFold_ge (D : DMap) :
    ∀ (l : List Int) (acc : Option Int) (L : Int), l.foldl (latestStep D) acc = some L →
      (∀ l0, acc = some l0 → l0 ≤ L) ∧
      (∀ p ∈ l, ∀ dp : Int × Int, alookup D p = some dp → dp.2 ≤ L) := by
  intro l
  induction l with
  | nil =>
      intro acc L h
      refine ⟨?_, by simp⟩
      intro l0 h2
      rw [h2] at h
      injection h with h3
      omega
  | cons p rest ih =>
      intro acc L h
      simp only [List.foldl_cons] at h
      obtain ⟨hacc, hrest⟩ := ih _ L h
      have hstep_ge : ∀ l0, acc = some l0 → ∃ l1, latestStep D acc p = some l1 ∧ l0 ≤ l1 := by
        intro l0 h0
        subst h0
        rcases hlk : alookup D p with _ | pe
        · exact ⟨l0, by simp [latestStep, hlk], le_refl l0⟩
        · by_cases hgt : pe.2 > l0
          · exact ⟨pe.2, by simp [latestStep, hlk, hgt], by omega⟩
          · exact ⟨l0, by simp [latestStep, hlk, hgt], le_refl l0⟩
      have hstep_p : ∀ dp : Int × Int, alookup D p = some dp →
          ∃ l1, latestStep D acc p = some l1 ∧ dp.2 ≤ l1 := by
        intro dp hdp
        rcases hac : acc with _ | l0
        · exact ⟨dp.2, by simp [latestStep, hdp, hac], le_refl _⟩
        · by_cases hgt : dp.2 > l0
          · exact ⟨dp.2, by simp [latestStep, hdp, hac, hgt], le_refl _⟩
          · exact ⟨l0, by simp [latestStep, hdp, hac, hgt], by omega⟩
      constructor
      · intro l0 h0
        obtain ⟨l1, hl1, hle⟩ := hstep_ge l0 h0
        exact le_trans hle (hacc l1 hl1)
      · intro p2 hp2 dp hdp
        rcases List.mem_cons.1 hp2 with h1 | h1
        · subst h1
          obtain ⟨l1, hl1, hle⟩ := hstep_p dp hdp
          exact le_trans hle (hacc l1 hl1)
        · exact hrest p2 h1 dp hdp

theorem alookup_of_mem_nodup {β : Type} (l : List (Int × β)) (k : Int) (v : β)
    (hkeys : (l.map Prod.fst).Nodup) (hmem : (k, v) ∈ l) : alookup l k = some v := by
  induction l with
  | nil => exact absurd hmem (List.not_mem_nil _)
  | cons p rest ih =>
      simp only [List.map_cons, List.nodup_cons] at hkeys
      rcases List.mem_cons.1 hmem with h1 | h1
      · subst h1
        simp [alookup]
      · have hk : k ≠ p.1 := by
          intro hc
          exact hkeys.1 (hc ▸ List.mem_map_of_mem Prod.fst h1)
        obtain ⟨p1, p2⟩ := p
        simp only [alookup, if_neg hk]
        exact ih hkeys.2 h1

theorem nodup_map_inj {α β : Type} (f : α → β) :
    ∀ (l : List α), (l.map f).Nodup → ∀ a ∈ l, ∀ b ∈ l, f a = f b → a = b := by
  intro l
  induction l with
  | nil =>
      intro _ a ha
      exact absurd ha (List.not_mem_nil a)
  | cons x rest ih =>
      intro h a ha b hb hfab
      simp only [List.map_cons, List.nodup_cons] at h
      rcases List.mem_cons.1 ha with ha1 | ha1 <;> rcases List.mem_cons.1 hb with hb1 | hb1
      · rw [ha1, hb1]
      · subst ha1
        exact absurd (hfab ▸ List.mem_map_of_mem f hb1) h.1
      · subst hb1
        exact absurd (hfab ▸ List.mem_map_of_mem f ha1) h.1
      · exact ih h.2 a ha1 b hb1 hfab

theorem mem_depts_iff (deps : List (Int × List Int))
    (hkeys : (deps.map Prod.fst).Nodup) (t q : Int) :
    q ∈ (deps.filter fun kp => decide (t ∈ kp.2)).map Prod.fst ↔
      t ∈ (alookup deps q).getD [] := by
  constructor
  · intro h
    obtain ⟨kp, hkp, hq⟩ := List.mem_map.1 h
    obtain ⟨hmem, hcond⟩ := List.mem_filter.1 hkp
    simp only [decide_eq_true_eq] at hcond
    have := alookup_of_mem_nodup deps kp.1 kp.2 hkeys hmem
    rw [hq] at this
    rw [this]
    exact hcond
  · intro h
    rcases hlk : alookup deps q with _ | ps
    · rw [hlk] at h
      exact absurd h (List.not_mem_nil t)
    · rw [hlk] at h
      simp only [Option.getD_some] at h
      refine List.mem_map.2 ⟨(q, ps), List.mem_filter.2 ⟨alookup_mem deps q ps hlk, ?_⟩, rfl⟩
      simpa using h

theorem dep_rank_facts (deps : List (Int × List Int)) (rank : Int → Nat) (N : Nat)
    (hrank : ∀ kp ∈ deps, ∀ p ∈ kp.2, rank p < rank kp.1)
    (hN : ∀ kp ∈ deps, rank kp.1 < N) (t q : Int)
    (h : t ∈ (alookup deps q).getD []) : rank t < rank q ∧ rank q < N := by
  rcases hlk : alookup deps q with _ | ps
  · rw [hlk] at h
    exact absurd h (List.not_mem_nil t)
  · rw [hlk] at h
    simp only [Option.getD_some] at h
    have hmem := alookup_mem deps q ps hlk
    exact ⟨hrank (q, ps) hmem t h, hN (q, ps) hmem⟩

theorem shift_step_props (deps : List (Int × List Int)) (D : DMap) (q : Int)
    (sq nv : Int × Int) (hsq : alookup D q = some sq) (hlt : sq.1 < nv.1) :
    (∀ x : Int, (alookup (ainsert D q nv) x).isSome = (alookup D x).isSome) ∧
    (∀ x dx2, alookup (ainsert D q nv) x = some dx2 →
      ∃ dx, alookup D x = some dx ∧ dx.1 ≤ dx2.1) ∧
    (∀ x, x ≠ q → alookup (ainsert D q nv) x = alookup D x) ∧
    (∀ q2 p2, p2 ≠ q → PairOK deps D q2 p2 → PairOK deps (ainsert D q nv) q2 p2) := by
  refine ⟨?_, ?_, ?_, ?_⟩
  · intro x
    rw [alookup_ainsert]
    by_cases hx : x = q
    · simp [hx, hsq]
    · simp [hx]
  · intro x dx2 h
    rw [alookup_ainsert] at h
    by_cases hx : x = q
    · rw [if_pos hx] at h
      injection h with h2
      subst h2
      refine ⟨sq, hx ▸ hsq, by omega⟩
    · rw [if_neg hx] at h
      exact ⟨dx2, h, le_refl _⟩
  · intro x hx
    exact alookup_ainsert_ne D q nv x hx
  · intro q2 p2 hp2 hok hmem dq dp hlq hlp
    rw [alookup_ainsert_ne D q nv p2 hp2] at hlp
    rw [alookup_ainsert] at hlq
    by_cases hq2 : q2 = q
    · subst hq2
      rw [if_pos rfl] at hlq
      injection hlq with h2
      subst h2
      have := hok hmem sq dp hsq hlp
      omega
    · rw [if_neg hq2] at hlq
      exact hok hmem dq dp hlq hlp

theorem cascadeFold_spec (deps : List (Int × List Int)) (taskDict : List (Int × Task))
    (rank : Int → Nat)
    (hrank : ∀ kp ∈ deps, ∀ p ∈ kp.2, rank p < rank kp.1)
    (_hkeys : (deps.map Prod.fst).Nodup)
    (t : Int) (e0 : Int) (recur : Int → DMap → DMap)
    (hrec : ∀ (q : Int) (D : DMap), rank t < rank q →
      CascadeOK deps taskDict rank D (recur q D) q) :
    ∀ (l : List Int) (D : DMap),
      (∀ q ∈ l, t ∈ (alookup deps q).getD []) →
      (∀ x : Int, (alookup (cascadeFold taskDict recur e0 l D) x).isSome =
        (alookup D x).isSome) ∧
      (∀ x dx2, alookup (cascadeFold taskDict recur e0 l D) x = some dx2 →
        ∃ dx, alookup D x = some dx ∧ dx.1 ≤ dx2.1) ∧
      (∀ x, rank x ≤ rank t → alookup (cascadeFold taskDict recur e0 l D) x = alookup D x) ∧
      (∀ q ∈ l, (alookup taskDict q).isSome = true →
        ∀ dq2, alookup (cascadeFold taskDict recur e0 l D) q = some dq2 → e0 < dq2.1) ∧
      (∀ q p, (alookup taskDict q).isSome = true → PairOK deps D q p →
        PairOK deps (cascadeFold taskDict recur e0 l D) q p) := by
  intro l
  induction l with
  | nil =>
      intro D _
      refine ⟨fun x => rfl, fun x dx2 h => ⟨dx2, h, le_refl _⟩, fun x _ => rfl, ?_,
        fun q p _ h => h⟩
      intro q hq
      exact absurd hq (List.not_mem_nil q)
  | cons q rest ih =>
      intro D hdeps
      have hdq : t ∈ (alookup deps q).getD [] := hdeps q (List.mem_cons_self _ _)
      have hrq : rank t < rank q := by
        rcases hlk : alookup deps q with _ | ps
        · rw [hlk] at hdq
          exact absurd hdq (List.not_mem_nil t)
        · rw [hlk] at hdq
          simp only [Option.getD_some] at hdq
          exact hrank (q, ps) (alookup_mem deps q ps hlk) t hdq
      have hdrest : ∀ q2 ∈ rest, t ∈ (alookup deps q2).getD [] :=
        fun q2 hq2 => hdeps q2 (List.mem_cons_of_mem _ hq2)
      rcases hlkq : alookup D q with _ | sq
      · simp only [cascadeFold, hlkq]
        obtain ⟨ia, ib, ic, icc, ie⟩ := ih D hdrest
        refine ⟨ia, ib, ic, ?_, ie⟩
        intro q2 hq2 hdict dq2 h2
        rcases List.mem_cons.1 hq2 with h3 | h3
        · subst h3
          have : (alookup (cascadeFold taskDict recur e0 rest D) q2).isSome =
              (alookup D q2).isSome := ia q2
          rw [h2, hlkq] at this
          exact absurd this (by simp)
        · exact icc q2 h3 hdict dq2 h2
      · rcases hdkq : alookup taskDict q with _ | tq
        · simp only [cascadeFold, hlkq, hdkq]
          obtain ⟨ia, ib, ic, icc, ie⟩ := ih D hdrest
          refine ⟨ia, ib, ic, ?_, ie⟩
          intro q2 hq2 hdict dq2 h2
          rcases List.mem_cons.1 hq2 with h3 | h3
          · subst h3
            rw [hdkq] at hdict
            exact absurd hdict (by simp)
          · exact icc q2 h3 hdict dq2 h2
        · simp only [cascadeFold, hlkq, hdkq]
          by_cases hle : sq.1 ≤ e0
          · rw [if_pos hle]
            set nv : Int × Int := (e0 + 1, e0 + 1 + tq.duration.getD 1 - 1) with hnv
            have hlt : sq.1 < nv.1 := by
              simp only [hnv]
              omega
            obtain ⟨sa, sb, sc, se⟩ := shift_step_props deps D q sq nv hlkq hlt
            obtain ⟨ra, rb, rc, rd, re⟩ := hrec q (ainsert D q nv) hrq
            obtain ⟨ia, ib, ic, icc, ie⟩ := ih (recur q (ainsert D q nv)) hdrest
            have hDcq : alookup (recur q (ainsert D q nv)) q = some nv := by
              rw [rc q (Nat.le_refl _)]
              exact alookup_ainsert_self D q nv
            refine ⟨?_, ?_, ?_, ?_, ?_⟩
            · intro x
              rw [ia x, ra x, sa x]
            · intro x dx2 h
              obtain ⟨dxc, hc1, hc2⟩ := ib x dx2 h
              obtain ⟨dxp, hp1, hp2⟩ := rb x dxc hc1
              obtain ⟨dx, hd1, hd2⟩ := sb x dxp hp1
              exact ⟨dx, hd1, by omega⟩
            · intro x hx
              have hxq : x ≠ q := fun hc => by
                rw [hc] at hx
                omega
              rw [ic x hx, rc x (Nat.le_trans hx (Nat.le_of_lt hrq)), sc x hxq]
            · intro q2 hq2 hdict dq2 h2
              rcases List.mem_cons.1 hq2 with h3 | h3
              · subst h3
                obtain ⟨dxc, hc1, hc2⟩ := ib q2 dq2 h2
                rw [hDcq] at hc1
                injection hc1 with h4
                subst h4
                simp only [hnv] at hc2
                omega
              · exact icc q2 h3 hdict dq2 h2
            · intro q2 p2 hdict hok
              by_cases hp2q : p2 = q
              · refine ie q2 p2 hdict ?_
                intro hmem dq2c dpc hlq2 hlpc
                rw [hp2q, hDcq] at hlpc
                injection hlpc with h4
                subst h4
                exact rd q2 (hp2q ▸ hmem) hdict nv (alookup_ainsert_self D q nv) dq2c hlq2
              · exact ie q2 p2 hdict (re q2 p2 hdict (se q2 p2 hp2q hok))
          · rw [if_neg hle]
            obtain ⟨ia, ib, ic, icc, ie⟩ := ih D hdrest
            refine ⟨ia, ib, ic, ?_, ie⟩
            intro q2 hq2 hdict dq2 h2
            rcases List.mem_cons.1 hq2 with h3 | h3
            · subst h3
              obtain ⟨dx, hd1, hd2⟩ := ib q2 dq2 h2
              rw [hlkq] at hd1
              injection hd1 with h4
              subst h4
              omega
            · exact icc q2 h3 hdict dq2 h2

theorem cascade_spec (deps : List (Int × List Int)) (taskDict : List (Int × Task))
    (rank : Int → Nat) (N : Nat)
    (hrank : ∀ kp ∈ deps, ∀ p ∈ kp.2, rank p < rank kp.1)
    (hN : ∀ kp ∈ deps, rank kp.1 < N)
    (hkeys : (deps.map Prod.fst).Nodup) :
    ∀ (fuel : Nat) (t : Int) (D : DMap), N ≤ fuel + rank t →
      CascadeOK deps taskDict rank D (cascade deps taskDict fuel t D) t := by
  intro fuel
  induction fuel with
  | zero =>
      intro t D hfuel
      refine ⟨fun x => rfl, fun x dx2 h => ⟨dx2, h, le_refl _⟩, fun x _ => rfl, ?_,
        fun q p _ h => h⟩
      intro q hdep _ d0 _ dq2 _
      exfalso
      obtain ⟨h1, h2⟩ := dep_rank_facts deps rank N hrank hN t q hdep
      omega
  | succ fuel ih =>
      intro t D hfuel
      simp only [cascade]
      by_cases hde : (deps.filter fun kp => decide (t ∈ kp.2)).map Prod.fst = []
      · rw [if_pos hde]
        refine ⟨fun x => rfl, fun x dx2 h => ⟨dx2, h, le_refl _⟩, fun x _ => rfl, ?_,
          fun q p _ h => h⟩
        intro q hdep _ d0 _ dq2 _
        exfalso
        have := (mem_depts_iff deps hkeys t q).2 hdep
        rw [hde] at this
        exact List.not_mem_nil q this
      · rw [if_neg hde]
        rcases hlkt : alookup D t with _ | d0
        · refine ⟨fun x => rfl, fun x dx2 h => ⟨dx2, h, le_refl _⟩, fun x _ => rfl, ?_,
            fun q p _ h => h⟩
          intro q _ _ d0 h0 dq2 _
          rw [hlkt] at h0
          exact Option.noConfusion h0
        · have hfold := cascadeFold_spec deps taskDict rank hrank hkeys t d0.2
            (cascade deps taskDict fuel)
            (fun q D2 hr => ih q D2 (by omega))
            ((deps.filter fun kp => decide (t ∈ kp.2)).map Prod.fst) D
            (fun q hq => (mem_depts_iff deps hkeys t q).1 hq)
          obtain ⟨fa, fb, fc, fcc, fe⟩ := hfold
          refine ⟨fa, fb, fc, ?_, fe⟩
          intro q hdep hdict d0' h0' dq2 h2
          rw [hlkt] at h0'
          injection h0' with h3
          subst h3
          exact fcc q ((mem_depts_iff deps hkeys t q).2 hdep) hdict dq2 h2

theorem nmTopoStep_inv (taskList : List Task) (sorted : List Task)
    (st : List (Int × Int) × List Task) (dep : Int)
    (h : TInv taskList sorted st) :
    TInv taskList sorted (nmTopoStep taskList st dep) := by
  obtain ⟨hnd, hsub, hcnt⟩ := h
  rcases hlk : alookup st.1 dep with _ | v0
  · simp only [nmTopoStep, hlk]
    exact ⟨hnd, hsub, hcnt⟩
  · by_cases hv : v0 - 1 = 0
    · rcases hfind : taskList.find? (fun t2 => decide (t2.id = some dep)) with _ | t2
      · simp only [nmTopoStep, hlk, hfind, if_pos hv]
        refine ⟨hnd, hsub, ?_⟩
        intro i v hlki hex
        rw [alookup_ainsert] at hlki
        by_cases hi : i = dep
        · rw [if_pos hi] at hlki
          injection hlki with h2
          omega
        · rw [if_neg hi] at hlki
          exact hcnt i v hlki hex
      · have ht2mem : t2 ∈ taskList := List.mem_of_find?_eq_some hfind
        have ht2id : t2.id = some dep := by
          have := List.find?_some hfind
          simpa using this
        have hnotin : t2 ∉ sorted ++ st.2 := by
          intro hc
          have := hcnt dep v0 hlk ⟨t2, hc, ht2id⟩
          omega
        simp only [nmTopoStep, hlk, hfind, if_pos hv]
        refine ⟨?_, ?_, ?_⟩
        · rw [← List.append_assoc]
          refine List.nodup_append.2 ⟨hnd, List.nodup_singleton t2, ?_⟩
          intro a ha hb
          rw [List.mem_singleton] at hb
          exact hnotin (hb ▸ ha)
        · intro x hx
          rcases List.mem_append.1 hx with h1 | h1
          · exact hsub x h1
          · rw [List.mem_singleton] at h1
            exact h1 ▸ ht2mem
        · intro i v hlki hex
          rw [alookup_ainsert] at hlki
          by_cases hi : i = dep
          · rw [if_pos hi] at hlki
            injection hlki with h2
            omega
          · rw [if_neg hi] at hlki
            obtain ⟨x, hxmem, hxid⟩ := hex
            rw [← List.append_assoc] at hxmem
            rcases List.mem_append.1 hxmem with h1 | h1
            · exact hcnt i v hlki ⟨x, h1, hxid⟩
            · rw [List.mem_singleton] at h1
              subst h1
              rw [ht2id] at hxid
              injection hxid with h3
              exact absurd h3.symm hi
    · simp only [nmTopoStep, hlk, if_neg hv]
      refine ⟨hnd, hsub, ?_⟩
      intro i v hlki hex
      rw [alookup_ainsert] at hlki
      by_cases hi : i = dep
      · rw [if_pos hi] at hlki
        injection hlki with h2
        have := hcnt dep v0 hlk (hi ▸ hex)
        omega
      · rw [if_neg hi] at hlki
        exact hcnt i v hlki hex

theorem nmTopoFold_inv (taskList : List Task) (sorted : List Task) :
    ∀ (l : List Int) (st : List (Int × Int) × List Task),
      TInv taskList sorted st →
      TInv taskList sorted (l.foldl (nmTopoStep taskList) st) := by
  intro l
  induction l with
  | nil =>
      intro st h
      exact h
  | cons d rest ih =>
      intro st h
      rw [List.foldl_cons]
      exact ih _ (nmTopoStep_inv taskList sorted st d h)

theorem nmTopoLoop_inv (taskList : List Task) (deps : List (Int × List Int)) :
    ∀ (fuel : Nat) (indeg : List (Int × Int)) (q sorted : List Task),
      TInv taskList sorted (indeg, q) →
      (∀ x ∈ sorted, x ∈ taskList) →
      (nmTopoLoop taskList deps fuel indeg q sorted).Nodup ∧
      (∀ x ∈ nmTopoLoop taskList deps fuel indeg q sorted, x ∈ taskList) := by
  intro fuel
  induction fuel with
  | zero =>
      intro indeg q sorted h hs
      simp only [nmTopoLoop]
      exact ⟨(List.nodup_append.1 h.1).1, hs⟩
  | succ fuel ih =>
      intro indeg q sorted h hs
      rcases q with _ | ⟨t, qrest⟩
      · simp only [nmTopoLoop]
        exact ⟨(List.nodup_append.1 h.1).1, hs⟩
      · have htTL : t ∈ taskList := h.2.1 t (List.mem_cons_self _ _)
        have hs2 : ∀ x ∈ sorted ++ [t], x ∈ taskList := by
          intro x hx
          rcases List.mem_append.1 hx with h1 | h1
          · exact hs x h1
          · rw [List.mem_singleton] at h1
            exact h1 ▸ htTL
        have hInv2 : TInv taskList (sorted ++ [t]) (indeg, qrest) := by
          refine ⟨?_, ?_, ?_⟩
          · rw [List.append_assoc, List.singleton_append]
            exact h.1
          · intro x hx
            exact h.2.1 x (List.mem_cons_of_mem _ hx)
          · intro i v hlki hex
            refine h.2.2 i v hlki ?_
            obtain ⟨x, hx, hxid⟩ := hex
            rw [List.append_assoc, List.singleton_append] at hx
            exact ⟨x, hx, hxid⟩
        rcases hid : t.id with _ | i
        · simp only [nmTopoLoop, hid]
          exact ih indeg qrest (sorted ++ [t]) hInv2 hs2
        · simp only [nmTopoLoop, hid]
          exact ih _ _ (sorted ++ [t])
            (nmTopoFold_inv taskList (sorted ++ [t]) _ _ hInv2) hs2

theorem leftover_fold_mem :
    ∀ (l acc : List Task) (t : Task), t ∈ l ∨ t ∈ acc →
      t ∈ l.foldl (fun acc2 t2 => if t2 ∈ acc2 then acc2 else acc2 ++ [t2]) acc := by
  intro l
  induction l with
  | nil =>
      intro acc t h
      rcases h with h | h
      · exact absurd h (List.not_mem_nil t)
      · exact h
  | cons x rest ih =>
      intro acc t h
      rw [List.foldl_cons]
      rcases h with h | h
      · rcases List.mem_cons.1 h with h1 | h1
        · subst h1
          refine ih _ t (Or.inr ?_)
          by_cases hx : t ∈ acc
          · rw [if_pos hx]
            exact hx
          · rw [if_neg hx]
            exact List.mem_append.2 (Or.inr (List.mem_singleton.2 rfl))
        · exact ih _ t (Or.inl h1)
      · refine ih _ t (Or.inr ?_)
        by_cases hx : x ∈ acc
        · rw [if_pos hx]
          exact h
        · rw [if_neg hx]
          exact List.mem_append.2 (Or.inl h)

theorem nmTopoSort_complete (taskList : List Task) (deps : List (Int × List Int))
    (hnd : taskList.Nodup) (t : Task) (ht : t ∈ taskList) :
    t ∈ nmTopoSort taskList deps := by
  have main : ∀ (indeg : List (Int × Int)) (queue : List Task),
      queue.Nodup → (∀ x ∈ queue, x ∈ taskList) →
      (∀ i v, alookup indeg i = some v → (∃ x, x ∈ queue ∧ x.id = some i) → v ≤ 0) →
      t ∈ (if (nmTopoLoop taskList deps (2 * taskList.length + 1) indeg queue []).length <
            taskList.length then
          taskList.foldl (fun acc2 t2 => if t2 ∈ acc2 then acc2 else acc2 ++ [t2])
            (nmTopoLoop taskList deps (2 * taskList.length + 1) indeg queue [])
        else nmTopoLoop taskList deps (2 * taskList.length + 1) indeg queue []) := by
    intro indeg queue h1 h2 h3
    have hq : TInv taskList [] (indeg, queue) := by
      refine ⟨?_, h2, ?_⟩
      · simpa using h1
      · intro i v hl hex
        obtain ⟨x, hx, hxid⟩ := hex
        rw [List.nil_append] at hx
        exact h3 i v hl ⟨x, hx, hxid⟩
    have hloop := nmTopoLoop_inv taskList deps (2 * taskList.length + 1) indeg queue [] hq
      (fun x hx => absurd hx (List.not_mem_nil x))
    by_cases hlen : (nmTopoLoop taskList deps (2 * taskList.length + 1) indeg queue []).length <
        taskList.length
    · rw [if_pos hlen]
      exact leftover_fold_mem taskList _ t (Or.inl ht)
    · rw [if_neg hlen]
      have hiff := nodup_subset_full
        (nmTopoLoop taskList deps (2 * taskList.length + 1) indeg queue []) taskList
        hloop.1 hnd hloop.2 (by omega)
      exact (hiff t).2 ht
  simp only [nmTopoSort]
  apply main
  · exact List.Nodup.filter _ hnd
  · intro x hx
    exact List.mem_of_mem_filter hx
  · intro i v hlki hex
    obtain ⟨x, hx, hxid⟩ := hex
    have hp := List.of_mem_filter hx
    simp only [hxid] at hp
    rw [hlki] at hp
    simp only [decide_eq_true_eq] at hp
    omega

theorem filterMap_alookup_nodup (taskDict : List (Int × Task))
    (hdict : ∀ pr ∈ taskDict, pr.2.id = some pr.1) :
    ∀ (keys : List Int), keys.Nodup →
      (keys.filterMap fun tid => alookup taskDict tid).Nodup := by
  intro keys
  induction keys with
  | nil =>
      intro _
      simp
  | cons k rest ih =>
      intro hnd
      rcases hlk : alookup taskDict k with _ | tk
      · simp only [List.filterMap_cons, hlk]
        exact ih (List.nodup_cons.1 hnd).2
      · simp only [List.filterMap_cons, hlk]
        obtain ⟨hknot, hrest⟩ := List.nodup_cons.1 hnd
        rw [List.nodup_cons]
        refine ⟨?_, ih hrest⟩
        intro hc
        obtain ⟨k2, hk2, hlk2⟩ := List.mem_filterMap.1 hc
        have h1 : tk.id = some k := hdict (k, tk) (alookup_mem _ _ _ hlk)
        have h2 : tk.id = some k2 := hdict (k2, tk) (alookup_mem _ _ _ hlk2)
        rw [h1] at h2
        injection h2 with h3
        refine hknot ?_
        rw [h3]
        exact hk2

theorem mainCorrect_spec (deps : List (Int × List Int)) (taskDict : List (Int × Task))
    (rank : Int → Nat) (N cf : Nat)
    (hrank : ∀ kp ∈ deps, ∀ p ∈ kp.2, rank p < rank kp.1)
    (hN : ∀ kp ∈ deps, rank kp.1 < N)
    (hkeys : (deps.map Prod.fst).Nodup)
    (hcf : N ≤ cf) :
    ∀ (l : List Task) (D : DMap),
      (∀ x : Int, (alookup D x).isSome = true → (alookup taskDict x).isSome = true) →
      (∀ x : Int, (alookup (mainCorrect deps taskDict cf l D) x).isSome =
        (alookup D x).isSome) ∧
      (∀ q p : Int, (alookup taskDict q).isSome = true → PairOK deps D q p →
        PairOK deps (mainCorrect deps taskDict cf l D) q p) ∧
      (∀ t ∈ l, ∀ tid : Int, t.id = some tid →
        ∀ p : Int, PairOK deps (mainCorrect deps taskDict cf l D) tid p) := by
  intro l
  induction l with
  | nil =>
      intro D _
      refine ⟨fun x => rfl, fun q p _ h => h, ?_⟩
      intro t ht
      exact absurd ht (List.not_mem_nil t)
  | cons t rest ih =>
      intro D hcov
      rcases hid : t.id with _ | tid0
      · simp only [mainCorrect, hid]
        obtain ⟨ia, ib, ic⟩ := ih D hcov
        refine ⟨ia, ib, ?_⟩
        intro t2 ht2 tid htid p
        rcases List.mem_cons.1 ht2 with h1 | h1
        · rw [h1, hid] at htid
          exact Option.noConfusion htid
        · exact ic t2 h1 tid htid p
      · rcases hlkd : alookup D tid0 with _ | sd
        · simp only [mainCorrect, hid, hlkd]
          obtain ⟨ia, ib, ic⟩ := ih D hcov
          refine ⟨ia, ib, ?_⟩
          intro t2 ht2 tid htid p
          rcases List.mem_cons.1 ht2 with h1 | h1
          · rw [h1, hid] at htid
            injection htid with h2
            intro hmem dq dp hlq hlp
            rw [← h2] at hlq
            have h3 := ia tid0
            rw [hlq, hlkd] at h3
            exact absurd h3 (by simp)
          · exact ic t2 h1 tid htid p
        · have hdt : (alookup taskDict tid0).isSome = true := by
            apply hcov
            rw [hlkd]
            rfl
          rcases hlat : latestPredEnd D ((alookup deps tid0).getD []) with _ | lv
          · simp only [mainCorrect, hid, hlkd, hlat]
            obtain ⟨ia, ib, ic⟩ := ih D hcov
            have hdone : ∀ p : Int, PairOK deps D tid0 p := by
              intro p hmem dq dp hlq hlp
              have hnone := (latestFold_none D _ none hlat).2 p hmem
              rw [hnone] at hlp
              exact Option.noConfusion hlp
            refine ⟨ia, ib, ?_⟩
            intro t2 ht2 tid htid p
            rcases List.mem_cons.1 ht2 with h1 | h1
            · rw [h1, hid] at htid
              injection htid with h2
              rw [← h2]
              exact ib tid0 p hdt (hdone p)
            · exact ic t2 h1 tid htid p
          · simp only [mainCorrect, hid, hlkd, hlat]
            by_cases hle : sd.1 ≤ lv
            · rw [if_pos hle]
              obtain ⟨ca, cb, cc, cd, ce⟩ := cascade_spec deps taskDict rank N hrank hN hkeys
                cf tid0 (ainsert D tid0 (lv + 1, lv + 1 + t.duration.getD 1 - 1)) (by omega)
              obtain ⟨sa, sb, sc, se⟩ := shift_step_props deps D tid0 sd
                (lv + 1, lv + 1 + t.duration.getD 1 - 1) hlkd
                (by show sd.1 < lv + 1; omega)
              have hcov3 : ∀ x : Int,
                  (alookup (cascade deps taskDict cf tid0
                    (ainsert D tid0 (lv + 1, lv + 1 + t.duration.getD 1 - 1))) x).isSome =
                      true →
                  (alookup taskDict x).isSome = true := by
                intro x hx
                rw [ca x, sa x] at hx
                exact hcov x hx
              obtain ⟨ia, ib, ic⟩ := ih _ hcov3
              have hD3t : alookup (cascade deps taskDict cf tid0
                  (ainsert D tid0 (lv + 1, lv + 1 + t.duration.getD 1 - 1))) tid0 =
                  some (lv + 1, lv + 1 + t.duration.getD 1 - 1) := by
                rw [cc tid0 (Nat.le_refl _)]
                exact alookup_ainsert_self D tid0 _
              have hpres : ∀ q p : Int, (alookup taskDict q).isSome = true →
                  PairOK deps D q p →
                  PairOK deps (cascade deps taskDict cf tid0
                    (ainsert D tid0 (lv + 1, lv + 1 + t.duration.getD 1 - 1))) q p := by
                intro q p hdq hok
                by_cases hpt : p = tid0
                · intro hmem dq dp hlq hlp
                  rw [hpt, hD3t] at hlp
                  injection hlp with h2
                  subst h2
                  exact cd q (hpt ▸ hmem) hdq _ (alookup_ainsert_self D tid0 _) dq hlq
                · exact ce q p hdq (se q p hpt hok)
              refine ⟨?_, ?_, ?_⟩
              · intro x
                rw [ia x, ca x, sa x]
              · intro q p hdq hok
                exact ib q p hdq (hpres q p hdq hok)
              · intro t2 ht2 tid htid p
                rcases List.mem_cons.1 ht2 with h1 | h1
                · rw [h1, hid] at htid
                  injection htid with h2
                  rw [← h2]
                  refine ib tid0 p hdt ?_
                  intro hmem dq dp hlq hlp
                  rw [hD3t] at hlq
                  injection hlq with h4
                  subst h4
                  have hrp : rank p < rank tid0 := by
                    rcases hlk2 : alookup deps tid0 with _ | ps
                    · rw [hlk2] at hmem
                      exact absurd hmem (List.not_mem_nil p)
                    · rw [hlk2] at hmem
                      simp only [Option.getD_some] at hmem
                      exact hrank (tid0, ps) (alookup_mem _ _ _ hlk2) p hmem
                  have hpne : p ≠ tid0 := by
                    intro hc
                    rw [hc] at hrp
                    omega
                  rw [cc p (Nat.le_of_lt hrp),
                    alookup_ainsert_ne D tid0 _ p hpne] at hlp
                  have hge := (latestFold_ge D _ none lv hlat).2 p hmem dp hlp
                  show dp.2 < lv + 1
                  omega
                · exact ic t2 h1 tid htid p
            · rw [if_neg hle]
              obtain ⟨ia, ib, ic⟩ := ih D hcov
              have hdone : ∀ p : Int, PairOK deps D tid0 p := by
                intro p hmem dq dp hlq hlp
                rw [hlkd] at hlq
                injection hlq with h2
                subst h2
                have hge := (latestFold_ge D _ none lv hlat).2 p hmem dp hlp
                omega
              refine ⟨ia, ib, ?_⟩
              intro t2 ht2 tid htid p
              rcases List.mem_cons.1 ht2 with h1 | h1
              · rw [h1, hid] at htid
                injection htid with h2
                rw [← h2]
                exact ib tid0 p hdt (hdone p)
              · exact ic t2 h1 tid htid p

/-- C3: after `_correct_dates_for_dependencies` (whose per-violation shifts
cascade through `_update_dependent_tasks`) returns on an acyclic dependency
map — acyclicity witnessed by a rank decreasing along predecessor edges and
bounded by the cascade fuel — every dated task starts strictly after the end
of each of its dated predecessors, shifts included, provided every dated
task is in the task dict (keyed by its own id) and in the dependency map. -/
theorem c3_dependency_correction
    (deps : List (Int × List Int)) (taskDict : List (Int × Task)) (D : DMap)
    (rank : Int → Nat) (N cf : Nat)
    (hrank : ∀ kp ∈ deps, ∀ p ∈ kp.2, rank p < rank kp.1)
    (hN : ∀ kp ∈ deps, rank kp.1 < N)
    (hkeys : (deps.map Prod.fst).Nodup)
    (hcf : N ≤ cf)
    (hdict : ∀ pr ∈ taskDict, pr.2.id = some pr.1)
    (hcov : ∀ kv ∈ D, (alookup taskDict kv.1).isSome = true)
    (hdeps : ∀ kv ∈ D, kv.1 ∈ deps.map Prod.fst) :
    ∀ t dt, alookup (correctDates cf D deps taskDict) t = some dt →
      ∀ p ∈ (alookup deps t).getD [],
        ∀ dp, alookup (correctDates cf D deps taskDict) p = some dp → dp.2 < dt.1 := by
  have hcov2 : ∀ x : Int, (alookup D x).isSome = true →
      (alookup taskDict x).isSome = true := by
    intro x hx
    rcases hlk : alookup D x with _ | v
    · rw [hlk] at hx
      exact absurd hx (by simp)
    · exact hcov (x, v) (alookup_mem _ _ _ hlk)
  have hTLnd : ((deps.map Prod.fst).filterMap fun tid => alookup taskDict tid).Nodup :=
    filterMap_alookup_nodup taskDict hdict (deps.map Prod.fst) hkeys
  obtain ⟨ma, mb, mc⟩ := mainCorrect_spec deps taskDict rank N cf hrank hN hkeys hcf
    (nmTopoSort ((deps.map Prod.fst).filterMap fun tid => alookup taskDict tid) deps) D hcov2
  intro t dt hlt p hmem dp hlp
  simp only [correctDates] at hlt hlp
  have hDt : (alookup D t).isSome = true := by
    have h1 := ma t
    rw [hlt] at h1
    rw [← h1]
    rfl
  obtain ⟨dv, hdv⟩ : ∃ v, alookup D t = some v := by
    rcases hlk : alookup D t with _ | v
    · rw [hlk] at hDt
      exact absurd hDt (by simp)
    · exact ⟨v, rfl⟩
  have htdeps : t ∈ deps.map Prod.fst := hdeps (t, dv) (alookup_mem _ _ _ hdv)
  have hdictt : (alookup taskDict t).isSome = true := hcov (t, dv) (alookup_mem _ _ _ hdv)
  obtain ⟨tk, htk⟩ : ∃ tk, alookup taskDict t = some tk := by
    rcases hlk : alookup taskDict t with _ | tk
    · rw [hlk] at hdictt
      exact absurd hdictt (by simp)
    · exact ⟨tk, rfl⟩
  have htkTL : tk ∈ (deps.map Prod.fst).filterMap fun tid => alookup taskDict tid :=
    List.mem_filterMap.2 ⟨t, htdeps, htk⟩
  have htkid : tk.id = some t := hdict (t, tk) (alookup_mem _ _ _ htk)
  have htksort : tk ∈ nmTopoSort
      ((deps.map Prod.fst).filterMap fun tid => alookup taskDict tid) deps :=
    nmTopoSort_complete _ deps hTLnd tk htkTL
  exact mc tk htksort t htkid p hmem dt dp hlt hlp

/-- Witness for the C3 theorem on a concrete inconsistent map: task 2 is
shifted past its predecessor 1 and the shift cascades to task 3. -/
theorem c3_dependency_correction_witness :
    alookup (correctDates 4 inconsDates consDeps consDict) 3 = some (7, 7) ∧
    alookup (correctDates 4 inconsDates consDeps consDict) 2 = some (5, 6) ∧
    ((5 : Int), (6 : Int)).2 < ((7 : Int), (7 : Int)).1 := by
  refine ⟨by decide, by decide, ?_⟩
  exact c3_dependency_correction consDeps consDict inconsDates consRank 4 4
    (by decide) (by decide) (by decide) (by decide) (by decide) (by decide) (by decide)
    3 (7, 7) (by decide) 2 (by decide) (5, 6) (by decide)

end Sched
